import Mathlib

set_option maxHeartbeats 1600000

/-! A verification development for the Huffman coding pipeline in
`src/huffman-encode-decode.py` of the zipit repository.

Conventions of the embedding: bytes are `Nat` values below 256; the bit
characters '0' and '1' of the Python bit strings are `false` and `true`;
Python's fallible operations (IndexError, KeyError, OverflowError, and the
`exit(0)` in `get_byte_array`) are modelled with `Option`; the two shared
mutable dictionaries `self.codes` and `self.reverse_mapping` are threaded
as explicit state, represented as association lists that keep Python's
dict insertion order.  `heapq.heappush` / `heapq.heappop` from the Python
standard library are embedded directly from their reference
implementation (array sift-down / sift-up on a binary heap ordered by
`HuffmanNode.__lt__`, which compares `freq` only). -/

/-- Python `HuffmanNode`: `char`, `freq` and optional `left`/`right`
children (lines 7-15 of the source). -/
inductive HuffmanNode : Type where
  | mk (char : Option Nat) (freq : Nat) (left : Option HuffmanNode) (right : Option HuffmanNode)

/-- Field accessor for `char`. -/
def HuffmanNode.char : HuffmanNode → Option Nat
  | .mk c _ _ _ => c

/-- Field accessor for `freq`. -/
def HuffmanNode.freq : HuffmanNode → Nat
  | .mk _ f _ _ => f

/-- Placeholder value for out-of-range list reads; every read performed by
the heap routines is in range, so its value is irrelevant. -/
def dummyNode : HuffmanNode := .mk none 0 none none

/-- Lookup in an association list, first match wins (Python dict lookup). -/
def lookup' {α β : Type} [DecidableEq α] (k : α) : List (α × β) → Option β
  | [] => none
  | (a, b) :: t => if a = k then some b else lookup' k t

/-- Python dict assignment `d[k] = v`: overwrite in place when the key is
present, otherwise append; insertion order is preserved either way. -/
def dictSet {α β : Type} [DecidableEq α] (m : List (α × β)) (k : α) (v : β) : List (α × β) :=
  if (lookup' k m).isSome then m.map (fun p => if p.1 = k then (k, v) else p)
  else m ++ [(k, v)]

/-- One step `frequency[char] += 1` of a `defaultdict(int)`: a missing key
is appended with count 1, a present key is incremented in place. -/
def bump : List (Nat × Nat) → Nat → List (Nat × Nat)
  | [], c => [(c, 1)]
  | (a, n) :: t, c => if a = c then (a, n + 1) :: t else (a, n) :: bump t c

/-- `build_frequency_dict` (lines 26-30): occurrence counts in first
occurrence order, as `dict.items()` would enumerate them. -/
def build_frequency_dict (data : List Nat) : List (Nat × Nat) :=
  data.foldl bump []

/-- `int(s, 2)` on a bit string, most significant bit first. -/
def bitsToNat (l : List Bool) : Nat :=
  l.foldl (fun a b => 2 * a + (if b then 1 else 0)) 0

/-- Fixed-width big-endian bit representation: with width 8 this is Python
`"{0:08b}".format(n)`, and also `bin(n)[2:].rjust(8, '0')`, for n < 256. -/
def natToBits : Nat → Nat → List Bool
  | 0, _ => []
  | w + 1, n => natToBits w (n / 2) ++ [n % 2 == 1]

/-- `int.from_bytes(l, byteorder='big')`. -/
def fromBytesBE (l : List Nat) : Nat :=
  l.foldl (fun a b => 256 * a + b) 0

/-- Fixed-width big-endian byte representation of a natural number. -/
def natToBytes : Nat → Nat → List Nat
  | 0, _ => []
  | k + 1, n => natToBytes k (n / 256) ++ [n % 256]

/-- `n.to_bytes(k, byteorder='big')`; the OverflowError raised when the
value does not fit is modelled as `none`. -/
def toBytesBE (k n : Nat) : Option (List Nat) :=
  if n < 256 ^ k then some (natToBytes k n) else none

/-- `bytes([c])`; the ValueError raised for c ≥ 256 is modelled as `none`. -/
def byte1 (c : Nat) : Option (List Nat) :=
  if c < 256 then some [c] else none

/-- The while loop of `heapq._siftdown(heap, startpos, pos)` from the
Python standard library, after `newitem = heap[pos]` has been read: move
`newitem` towards the root while it is `<` its parent (`HuffmanNode.__lt__`
compares `freq` only). -/
def siftdownLoop (heap : List HuffmanNode) (startpos pos : Nat) (newitem : HuffmanNode) :
    List HuffmanNode :=
  if startpos < pos then
    if newitem.freq < (heap.getD ((pos - 1) / 2) dummyNode).freq then
      siftdownLoop (heap.set pos (heap.getD ((pos - 1) / 2) dummyNode)) startpos
        ((pos - 1) / 2) newitem
    else
      heap.set pos newitem
  else
    heap.set pos newitem
termination_by pos
decreasing_by omega

/-- `heapq._siftdown(heap, startpos, pos)`. -/
def siftdown (heap : List HuffmanNode) (startpos pos : Nat) : List HuffmanNode :=
  siftdownLoop heap startpos pos (heap.getD pos dummyNode)

/-- The while loop of `heapq._siftup`, after `newitem = heap[pos]` and
`endpos = len(heap)` have been read: bubble the smaller child up until a
leaf position is reached, then place `newitem` and sift it down. -/
def siftupLoop (heap : List HuffmanNode) (pos : Nat) (newitem : HuffmanNode)
    (endpos startpos : Nat) : List HuffmanNode :=
  if 2 * pos + 1 < endpos then
    let childpos :=
      if 2 * pos + 2 < endpos ∧
          ¬ (heap.getD (2 * pos + 1) dummyNode).freq < (heap.getD (2 * pos + 2) dummyNode).freq
      then 2 * pos + 2 else 2 * pos + 1
    siftupLoop (heap.set pos (heap.getD childpos dummyNode)) childpos newitem endpos startpos
  else
    siftdownLoop (heap.set pos newitem) startpos pos newitem
termination_by endpos - pos
decreasing_by
  split <;> omega

/-- `heapq._siftup(heap, pos)`. -/
def siftup (heap : List HuffmanNode) (pos : Nat) : List HuffmanNode :=
  siftupLoop heap pos (heap.getD pos dummyNode) heap.length pos

/-- `heapq.heappush(heap, item)`: append, then sift down from the last
position. -/
def heappush (heap : List HuffmanNode) (item : HuffmanNode) : List HuffmanNode :=
  siftdown (heap ++ [item]) 0 heap.length

/-- `heapq.heappop(heap)`: pop the last element; if the heap is still
non-empty, the root is returned and the last element is sifted up from the
root position.  Popping an empty heap (IndexError) is `none`. -/
def heappop (heap : List HuffmanNode) : Option (HuffmanNode × List HuffmanNode) :=
  match heap.getLast? with
  | none => none
  | some lastelt =>
    let rest := heap.dropLast
    if rest.isEmpty then some (lastelt, rest)
    else some (rest.headD dummyNode, siftup (rest.set 0 lastelt) 0)

/-- `build_heap` (lines 33-38): push one leaf per `(char, freq)` item, in
the insertion order of the frequency dictionary. -/
def build_heap (frequency : List (Nat × Nat)) : List HuffmanNode :=
  frequency.foldl (fun heap p => heappush heap (.mk (some p.1) p.2 none none)) []

/-- The `while len(heap) > 1` loop of `build_huffman_tree` (lines 41-48),
with a fuel parameter; `build_huffman_tree` supplies fuel `heap.length`,
which always suffices because each iteration shrinks the heap by exactly
one node.  Reading `heap[0]` of an empty heap (the IndexError raised when
compressing empty input) is `none`. -/
def buildTreeGo : Nat → List HuffmanNode → Option HuffmanNode
  | fuel + 1, heap =>
    if 1 < heap.length then
      match heappop heap with
      | none => none
      | some (node1, heap1) =>
        match heappop heap1 with
        | none => none
        | some (node2, heap2) =>
          buildTreeGo fuel
            (heappush heap2 (.mk none (node1.freq + node2.freq) (some node1) (some node2)))
    else heap.head?
  | 0, heap => if 1 < heap.length then none else heap.head?

/-- `build_huffman_tree` (lines 41-48). -/
def build_huffman_tree (heap : List HuffmanNode) : Option HuffmanNode :=
  buildTreeGo heap.length heap

/-- The threaded state of `self.codes` and `self.reverse_mapping`. -/
structure CodeState where
  codes : List (Nat × List Bool)
  reverse_mapping : List (List Bool × Nat)
deriving DecidableEq

/-- `build_codes_helper` (lines 51-61): a node with `char` set records the
accumulated code in both dictionaries and returns; an internal node
recurses left with '0' appended, then right with '1' appended. -/
def build_codes_helper : Option HuffmanNode → List Bool → CodeState → CodeState
  | none, _, st => st
  | some (.mk (some c) _ _ _), current_code, st =>
    { codes := dictSet st.codes c current_code
      reverse_mapping := dictSet st.reverse_mapping current_code c }
  | some (.mk none _ left right), current_code, st =>
    build_codes_helper right (current_code ++ [true])
      (build_codes_helper left (current_code ++ [false]) st)

/-- `build_codes` (lines 64-65), starting from a fresh encoder state. -/
def build_codes (root : HuffmanNode) : CodeState :=
  build_codes_helper (some root) [] ⟨[], []⟩

/-- `get_encoded_text` (lines 68-72): concatenate `self.codes[char]` over
the input; a missing key (KeyError) is `none`. -/
def get_encoded_text (codes : List (Nat × List Bool)) (data : List Nat) : Option (List Bool) :=
  data.foldl (fun acc char => do
    let s ← acc
    let code ← lookup' char codes
    pure (s ++ code)) (some [])

/-- `pad_encoded_text` (lines 75-82): append `8 - len % 8` zero bits, then
prepend that count as an 8-bit field. -/
def pad_encoded_text (encoded_text : List Bool) : List Bool :=
  let extra_padding := 8 - encoded_text.length % 8
  natToBits 8 extra_padding ++ (encoded_text ++ List.replicate extra_padding false)

/-- The `for i in range(0, len, 8)` loop of `get_byte_array`: convert each
8-bit group to its byte value.  The catch-all arm only receives lists of
fewer than 8 bits, which the guard in `get_byte_array` excludes. -/
def getByteArrayGo : List Bool → List Nat
  | b0 :: b1 :: b2 :: b3 :: b4 :: b5 :: b6 :: b7 :: rest =>
    bitsToNat [b0, b1, b2, b3, b4, b5, b6, b7] :: getByteArrayGo rest
  | _ => []

/-- `get_byte_array` (lines 85-94); the `exit(0)` taken when the length is
not a multiple of 8 is modelled as `none`. -/
def get_byte_array (padded_encoded_text : List Bool) : Option (List Nat) :=
  if padded_encoded_text.length % 8 ≠ 0 then none
  else some (getByteArrayGo padded_encoded_text)

/-- The frequency-dictionary serialization loop of `compress`
(lines 122-125): `bytes([char])` then `freq.to_bytes(4, 'big')` for each
item, in dictionary order. -/
def freq_records : List (Nat × Nat) → Option (List Nat)
  | [] => some []
  | (char, freq) :: t => do
    let c ← byte1 char
    let f ← toBytesBE 4 freq
    let rest ← freq_records t
    pure (c ++ f ++ rest)

/-- `compress` (lines 104-133) with the file handling stripped: the input
is the byte sequence read from the input file, the result is the byte
sequence written to the output file (or `none` where the Python code
raises). -/
def compress (data : List Nat) : Option (List Nat) := do
  let frequency := build_frequency_dict data
  let heap := build_heap frequency
  let root ← build_huffman_tree heap
  let st := build_codes root
  let encoded_text ← get_encoded_text st.codes data
  let padded_encoded_text := pad_encoded_text encoded_text
  let byte_array ← get_byte_array padded_encoded_text
  let header ← toBytesBE 2 frequency.length
  let records ← freq_records frequency
  pure (header ++ records ++ byte_array)

/-- `remove_padding` (lines 142-148): read the first 8 bits as the padding
count, drop them, then drop that many bits from the tail
(`s[:-1*e]`, which for e = 0 keeps nothing at all).  `int('', 2)` on an
empty bit string raises ValueError, modelled as `none`. -/
def remove_padding (padded_encoded_text : List Bool) : Option (List Bool) :=
  if padded_encoded_text.isEmpty then none
  else
    let extra_padding := bitsToNat (padded_encoded_text.take 8)
    let rest := padded_encoded_text.drop 8
    if extra_padding = 0 then some []
    else some (rest.take (rest.length - extra_padding))

/-- One iteration of the `for bit in encoded_text` loop of `decode_text`
(lines 155-160): append the bit to `current_code`; when `current_code` is
a key of `reverse_mapping`, emit the mapped byte and reset. -/
def decodeStep (reverse_mapping : List (List Bool × Nat)) (st : List Bool × List Nat)
    (bit : Bool) : List Bool × List Nat :=
  match lookup' (st.1 ++ [bit]) reverse_mapping with
  | some char => ([], st.2 ++ [char])
  | none => (st.1 ++ [bit], st.2)

/-- `decode_text` (lines 151-162): run the bit loop from an empty
accumulator; bits left in the accumulator at the end are silently
discarded. -/
def decode_text (reverse_mapping : List (List Bool × Nat)) (encoded_text : List Bool) :
    List Nat :=
  (encoded_text.foldl (decodeStep reverse_mapping) (([] : List Bool), ([] : List Nat))).2

/-- The frequency-dictionary reading loop of `decompress` (lines 173-177):
`char = file.read(1)[0]` (IndexError at end of file is `none`),
`freq = int.from_bytes(file.read(4), 'big')` (a short read is tolerated,
as in Python), then `frequency[char] = freq`. -/
def read_freq_loop : Nat → List Nat → List (Nat × Nat) →
    Option (List (Nat × Nat) × List Nat)
  | 0, rest, frequency => some (frequency, rest)
  | k + 1, rest, frequency => do
    let char ← rest.head?
    let freq := fromBytesBE ((rest.drop 1).take 4)
    read_freq_loop k (rest.drop 5) (dictSet frequency char freq)

/-- `decompress` (lines 166-204) with the file handling stripped: the
input is the container byte sequence, the result is the byte sequence
written to the output file (or `none` where the Python code raises). -/
def decompress (input : List Nat) : Option (List Nat) := do
  let freq_dict_size := fromBytesBE (input.take 2)
  let (frequency, rest) ← read_freq_loop freq_dict_size (input.drop 2) []
  let heap := build_heap frequency
  let root ← build_huffman_tree heap
  let st := build_codes root
  let bit_string := rest.flatMap (natToBits 8)
  let encoded_text ← remove_padding bit_string
  pure (decode_text st.reverse_mapping encoded_text)

/-- The multiset of symbols stored at the nodes a `build_codes_helper`
traversal would record: a node with `char` set contributes that symbol, an
internal node contributes its children's symbols left to right. -/
def optChars : Option HuffmanNode → List Nat
  | none => []
  | some (.mk (some c) _ _ _) => [c]
  | some (.mk none _ left right) => optChars left ++ optChars right

/-- The `(symbol, code)` pairs a `build_codes_helper` traversal records,
in recording order. -/
def codesOf : Option HuffmanNode → List Bool → List (Nat × List Bool)
  | none, _ => []
  | some (.mk (some c) _ _ _), current_code => [(c, current_code)]
  | some (.mk none _ left right), current_code =>
    codesOf left (current_code ++ [false]) ++ codesOf right (current_code ++ [true])

/-- Concatenation of the recorded symbols over all the trees of a heap. -/
def heapChars (heap : List HuffmanNode) : List Nat :=
  heap.flatMap (fun n => optChars (some n))

/-! ### Bit-string and byte-string arithmetic -/

theorem natToBits_length (w n : Nat) : (natToBits w n).length = w := by
  induction w generalizing n with
  | zero => rfl
  | succ w ih => simp [natToBits, ih]

theorem natToBytes_length (k n : Nat) : (natToBytes k n).length = k := by
  induction k generalizing n with
  | zero => rfl
  | succ k ih => simp [natToBytes, ih]

theorem bitsToNat_shift (l : List Bool) (a : Nat) :
    l.foldl (fun x b => 2 * x + (if b then 1 else 0)) a = a * 2 ^ l.length + bitsToNat l := by
  induction l generalizing a with
  | nil => simp [bitsToNat]
  | cons b t ih =>
    simp only [List.foldl_cons, bitsToNat, List.length_cons]
    rw [ih, ih (2 * 0 + (if b then 1 else 0))]
    ring

theorem bitsToNat_append (l1 l2 : List Bool) :
    bitsToNat (l1 ++ l2) = bitsToNat l1 * 2 ^ l2.length + bitsToNat l2 := by
  simp only [bitsToNat, List.foldl_append]
  rw [bitsToNat_shift l2 (List.foldl _ 0 l1)]
  rfl

theorem bitsToNat_lt (l : List Bool) : bitsToNat l < 2 ^ l.length := by
  induction l using List.reverseRecOn with
  | nil => simp [bitsToNat]
  | append_singleton t b ih =>
    rw [bitsToNat_append]
    have hb : bitsToNat [b] ≤ 1 := by cases b <;> simp [bitsToNat]
    simp only [List.length_append, List.length_singleton, pow_succ, pow_one]
    omega

theorem bitsToNat_natToBits {w n : Nat} (h : n < 2 ^ w) : bitsToNat (natToBits w n) = n := by
  induction w generalizing n with
  | zero =>
    interval_cases n
    rfl
  | succ w ih =>
    rw [natToBits, bitsToNat_append]
    have h2 : n / 2 < 2 ^ w := by
      rw [pow_succ] at h
      omega
    rw [ih h2]
    have : bitsToNat [n % 2 == 1] = n % 2 := by
      rcases Nat.mod_two_eq_zero_or_one n with h | h <;> rw [h] <;> rfl
    rw [this]
    simp only [List.length_singleton, pow_one]
    omega

theorem natToBits_bitsToNat (l : List Bool) : natToBits l.length (bitsToNat l) = l := by
  induction l using List.reverseRecOn with
  | nil => rfl
  | append_singleton t b ih =>
    rw [bitsToNat_append]
    simp only [List.length_append, List.length_singleton, natToBits]
    have hb : bitsToNat [b] = if b then 1 else 0 := by cases b <;> rfl
    rw [hb]
    have hdiv : (bitsToNat t * 2 ^ 1 + if b then 1 else 0) / 2 = bitsToNat t := by
      cases b <;> simp <;> omega
    have hmod : ((bitsToNat t * 2 ^ 1 + if b then 1 else 0) % 2 == 1) = b := by
      cases b <;> simp [Nat.add_mul_mod_self_left] <;> omega
    rw [hdiv, hmod, ih]

theorem natToBits_bitsToNat_of_length {w : Nat} {l : List Bool} (h : l.length = w) :
    natToBits w (bitsToNat l) = l := by
  subst h
  exact natToBits_bitsToNat l

theorem fromBytesBE_shift (l : List Nat) (a : Nat) :
    l.foldl (fun x b => 256 * x + b) a = a * 256 ^ l.length + fromBytesBE l := by
  induction l generalizing a with
  | nil => simp [fromBytesBE]
  | cons b t ih =>
    simp only [List.foldl_cons, fromBytesBE, List.length_cons]
    rw [ih, ih (256 * 0 + b)]
    ring

theorem fromBytesBE_append (l1 l2 : List Nat) :
    fromBytesBE (l1 ++ l2) = fromBytesBE l1 * 256 ^ l2.length + fromBytesBE l2 := by
  simp only [fromBytesBE, List.foldl_append]
  rw [fromBytesBE_shift l2 (List.foldl _ 0 l1)]
  rfl

theorem fromBytesBE_natToBytes {k n : Nat} (h : n < 256 ^ k) :
    fromBytesBE (natToBytes k n) = n := by
  induction k generalizing n with
  | zero =>
    interval_cases n
    rfl
  | succ k ih =>
    rw [natToBytes, fromBytesBE_append]
    have h2 : n / 256 < 256 ^ k := by
      rw [pow_succ] at h
      omega
    rw [ih h2]
    have : fromBytesBE [n % 256] = n % 256 := by simp [fromBytesBE]
    rw [this]
    simp only [List.length_singleton, pow_one]
    omega

theorem natToBytes_mem_lt {k n : Nat} {b : Nat} (h : b ∈ natToBytes k n) : b < 256 := by
  induction k generalizing n with
  | zero => simp [natToBytes] at h
  | succ k ih =>
    rw [natToBytes] at h
    rcases List.mem_append.mp h with h | h
    · exact ih h
    · simp at h
      omega

/-! ### Association list lemmas -/

theorem lookup'_eq_none_iff {α β : Type} [DecidableEq α] (k : α) (m : List (α × β)) :
    lookup' k m = none ↔ k ∉ m.map Prod.fst := by
  induction m with
  | nil => simp [lookup']
  | cons p t ih =>
    obtain ⟨a, b⟩ := p
    by_cases h : a = k
    · subst h
      simp [lookup']
    · rw [lookup', if_neg h]
      simp only [List.map_cons, List.mem_cons, not_or, ih]
      constructor
      · intro hn
        exact ⟨fun hk => h hk.symm, hn⟩
      · intro hn
        exact hn.2

theorem mem_of_lookup'_eq_some {α β : Type} [DecidableEq α] {k : α} {v : β}
    {m : List (α × β)} (h : lookup' k m = some v) : (k, v) ∈ m := by
  induction m with
  | nil => simp [lookup'] at h
  | cons p t ih =>
    obtain ⟨a, b⟩ := p
    by_cases hak : a = k
    · subst hak
      simp [lookup'] at h
      simp [h]
    · simp [lookup', hak] at h
      exact List.mem_cons_of_mem _ (ih h)

theorem lookup'_eq_some_of_mem {α β : Type} [DecidableEq α] {k : α} {v : β}
    {m : List (α × β)} (hnd : (m.map Prod.fst).Nodup) (h : (k, v) ∈ m) :
    lookup' k m = some v := by
  induction m with
  | nil => simp at h
  | cons p t ih =>
    obtain ⟨a, b⟩ := p
    simp only [List.map_cons, List.nodup_cons] at hnd
    rcases List.mem_cons.mp h with h | h
    · obtain ⟨h1, h2⟩ := Prod.mk.injEq .. ▸ h
      simp [lookup', h1.symm, h2]
    · have hak : a ≠ k := by
        intro hak
        subst hak
        exact hnd.1 (List.mem_map.mpr ⟨(a, v), h, rfl⟩)
      simp [lookup', hak]
      exact ih hnd.2 h

theorem lookup'_append_of_none {α β : Type} [DecidableEq α] {k : α}
    {m1 m2 : List (α × β)} (h : lookup' k m1 = none) :
    lookup' k (m1 ++ m2) = lookup' k m2 := by
  induction m1 with
  | nil => rfl
  | cons p t ih =>
    obtain ⟨a, b⟩ := p
    rw [lookup'] at h
    rw [List.cons_append, lookup']
    by_cases hak : a = k
    · rw [if_pos hak] at h
      cases h
    · rw [if_neg hak] at h
      rw [if_neg hak]
      exact ih h

theorem lookup'_append_of_some {α β : Type} [DecidableEq α] {k : α} {v : β}
    {m1 m2 : List (α × β)} (h : lookup' k m1 = some v) :
    lookup' k (m1 ++ m2) = some v := by
  induction m1 with
  | nil => simp [lookup'] at h
  | cons p t ih =>
    obtain ⟨a, b⟩ := p
    rw [lookup'] at h
    rw [List.cons_append, lookup']
    by_cases hak : a = k
    · rw [if_pos hak] at h
      rw [if_pos hak]
      exact h
    · rw [if_neg hak] at h
      rw [if_neg hak]
      exact ih h

theorem dictSet_fresh {α β : Type} [DecidableEq α] {k : α} (v : β) {m : List (α × β)}
    (h : lookup' k m = none) : dictSet m k v = m ++ [(k, v)] := by
  simp [dictSet, h]

/-! ### Transposition permutations for `List.set` -/

theorem cons_set_perm {α : Type} (d : α) :
    ∀ (t : List α) (k : Nat) (y : α), k < t.length →
      (t.getD k d :: t.set k y).Perm (y :: t)
  | b :: t', 0, y, _ => by
    simpa using List.Perm.swap y b t'
  | b :: t', k + 1, y, h => by
    simp only [List.getD_cons_succ, List.set_cons_succ]
    have s1 : (t'.getD k d :: b :: t'.set k y).Perm (b :: t'.getD k d :: t'.set k y) :=
      List.Perm.swap b (t'.getD k d) (t'.set k y)
    have s2 : (b :: (t'.getD k d :: t'.set k y)).Perm (b :: (y :: t')) :=
      (cons_set_perm d t' k y (by simpa using h)).cons b
    have s3 : (b :: y :: t').Perm (y :: b :: t') := List.Perm.swap y b t'
    exact s1.trans (s2.trans s3)

theorem cons_set_set_perm {α : Type} :
    ∀ (t : List α) (m : Nat) (a y : α), m < t.length →
      (y :: t.set m a).Perm (a :: t.set m y)
  | b :: t', 0, a, y, _ => by
    simpa using List.Perm.swap a y t'
  | b :: t', m + 1, a, y, h => by
    simp only [List.set_cons_succ]
    have s1 : (y :: b :: t'.set m a).Perm (b :: y :: t'.set m a) :=
      List.Perm.swap b y (t'.set m a)
    have s2 : (b :: (y :: t'.set m a)).Perm (b :: (a :: t'.set m y)) :=
      (cons_set_set_perm t' m a y (by simpa using h)).cons b
    have s3 : (b :: a :: t'.set m y).Perm (a :: b :: t'.set m y) :=
      List.Perm.swap a b (t'.set m y)
    exact s1.trans (s2.trans s3)

theorem set_swap_perm {α : Type} (d : α) :
    ∀ (l : List α) (i j : Nat) (y : α), i < l.length → j < l.length → i ≠ j →
      (((l.set i (l.getD j d)).set j y)).Perm (l.set i y)
  | [], i, j, y, hi, _, _ => by simp at hi
  | a :: t, 0, 0, y, _, _, hij => (hij rfl).elim
  | a :: t, 0, j + 1, y, _, hj, _ => by
    simp only [List.getD_cons_succ, List.set_cons_zero, List.set_cons_succ]
    exact cons_set_perm d t j y (by simpa using hj)
  | a :: t, i + 1, 0, y, hi, _, _ => by
    simp only [List.getD_cons_zero, List.set_cons_succ, List.set_cons_zero]
    exact cons_set_set_perm t i a y (by simpa using hi)
  | a :: t, i + 1, j + 1, y, hi, hj, hij => by
    simp only [List.getD_cons_succ, List.set_cons_succ]
    exact (set_swap_perm d t i j y (by simpa using hi) (by simpa using hj)
      (fun h => hij (by omega))).cons a

/-! ### Heap operations permute their contents -/

theorem set_getD_self {α : Type} (d : α) :
    ∀ (l : List α) (n : Nat), n < l.length → l.set n (l.getD n d) = l
  | a :: t, 0, _ => rfl
  | a :: t, n + 1, h => by
    simp only [List.getD_cons_succ, List.set_cons_succ]
    rw [set_getD_self d t n (by simpa using h)]

theorem siftdownLoop_perm :
    ∀ (pos : Nat) (heap : List HuffmanNode) (s : Nat) (n : HuffmanNode),
      pos < heap.length → (siftdownLoop heap s pos n).Perm (heap.set pos n) := by
  intro pos
  induction pos using Nat.strong_induction_on with
  | _ pos ih =>
    intro heap s n hp
    rw [siftdownLoop]
    split
    next hsp =>
      split
      next hlt =>
        have hpp : (pos - 1) / 2 < pos := by omega
        have step := ih ((pos - 1) / 2) hpp
          (heap.set pos (heap.getD ((pos - 1) / 2) dummyNode)) s n
          (by rw [List.length_set]; omega)
        exact step.trans
          (set_swap_perm dummyNode heap pos ((pos - 1) / 2) n hp (by omega) (by omega))
      next hlt => exact List.Perm.refl _
    next hsp => exact List.Perm.refl _

theorem siftupLoop_perm :
    ∀ (fuel endpos : Nat) (heap : List HuffmanNode) (pos : Nat) (n : HuffmanNode) (s : Nat),
      endpos - pos ≤ fuel → endpos = heap.length → pos < heap.length →
      (siftupLoop heap pos n endpos s).Perm (heap.set pos n) := by
  intro fuel
  induction fuel with
  | zero =>
    intro endpos heap pos n s hf he hp
    omega
  | succ fuel ih =>
    intro endpos heap pos n s hf he hp
    rw [siftupLoop]
    split
    next hchild =>
      have key : ∀ cp : Nat, pos < cp → cp < endpos →
          (siftupLoop (heap.set pos (heap.getD cp dummyNode)) cp n endpos s).Perm
            (heap.set pos n) := by
        intro cp h1 h2
        have step := ih endpos (heap.set pos (heap.getD cp dummyNode)) cp n s
          (by omega) (by rw [List.length_set]; omega) (by rw [List.length_set]; omega)
        exact step.trans (set_swap_perm dummyNode heap pos cp n hp (by omega) (by omega))
      split
      next hc => exact key (2 * pos + 2) (by omega) hc.1
      next hc => exact key (2 * pos + 1) (by omega) hchild
    next hchild =>
      have := siftdownLoop_perm pos (heap.set pos n) s n (by rw [List.length_set]; omega)
      rw [List.set_set] at this
      exact this

theorem siftup_perm (heap : List HuffmanNode) (pos : Nat) (hp : pos < heap.length) :
    (siftup heap pos).Perm heap := by
  rw [siftup]
  have := siftupLoop_perm (heap.length - pos) heap.length heap pos
    (heap.getD pos dummyNode) pos (by omega) rfl hp
  rwa [set_getD_self dummyNode heap pos hp] at this

theorem heappush_perm (heap : List HuffmanNode) (item : HuffmanNode) :
    (heappush heap item).Perm (item :: heap) := by
  rw [heappush, siftdown]
  have hlen : heap.length < (heap ++ [item]).length := by simp
  have hget : (heap ++ [item]).getD heap.length dummyNode = item := by
    rw [List.getD_eq_getElem _ _ (by simp)]
    exact List.getElem_concat_length heap item heap.length rfl _
  rw [hget]
  have hperm := siftdownLoop_perm heap.length (heap ++ [item]) 0 item hlen
  have hset : (heap ++ [item]).set heap.length item = heap ++ [item] := by
    have h0 := set_getD_self dummyNode (heap ++ [item]) heap.length hlen
    rwa [hget] at h0
  rw [hset] at hperm
  exact hperm.trans (List.perm_append_singleton item heap)

theorem heappush_length (heap : List HuffmanNode) (item : HuffmanNode) :
    (heappush heap item).length = heap.length + 1 := by
  have := (heappush_perm heap item).length_eq
  simpa using this

theorem heappop_perm {heap : List HuffmanNode} {x : HuffmanNode} {h' : List HuffmanNode}
    (h : heappop heap = some (x, h')) : (x :: h').Perm heap := by
  induction heap using List.reverseRecOn with
  | nil => simp [heappop] at h
  | append_singleton l a _ =>
    rw [heappop, List.getLast?_concat, List.dropLast_concat] at h
    cases l with
    | nil =>
      simp at h
      rw [h.1, h.2]
      rfl
    | cons b t =>
      simp only [List.isEmpty_cons, if_false, Option.some.injEq, Prod.mk.injEq,
        List.headD_cons, Bool.false_eq_true] at h
      obtain ⟨hx, hh⟩ := h
      subst hx
      have hs : (siftup ((b :: t).set 0 a) 0).Perm (a :: t) := by
        have := siftup_perm ((b :: t).set 0 a) 0 (by simp)
        simpa using this
      rw [← hh]
      have s1 : (b :: siftup ((b :: t).set 0 a) 0).Perm (b :: (a :: t)) := hs.cons b
      have s2 : ((b :: t) ++ [a]).Perm (a :: (b :: t)) := List.perm_append_singleton a (b :: t)
      have s3 : (a :: b :: t).Perm (b :: a :: t) := List.Perm.swap b a t
      exact s1.trans (s2.trans s3).symm

theorem heappop_length {heap : List HuffmanNode} {x : HuffmanNode} {h' : List HuffmanNode}
    (h : heappop heap = some (x, h')) : heap.length = h'.length + 1 := by
  have := (heappop_perm h).length_eq
  simpa using this.symm

theorem heappop_isSome {heap : List HuffmanNode} (h : heap ≠ []) : (heappop heap).isSome := by
  induction heap using List.reverseRecOn with
  | nil => exact (h rfl).elim
  | append_singleton l a _ =>
    rw [heappop, List.getLast?_concat, List.dropLast_concat]
    by_cases hl : l.isEmpty <;> simp [hl]

/-! ### The Huffman tree holds exactly the heap's symbols -/

theorem heapChars_cons (x : HuffmanNode) (l : List HuffmanNode) :
    heapChars (x :: l) = optChars (some x) ++ heapChars l := by
  simp [heapChars]

theorem heapChars_perm {l1 l2 : List HuffmanNode} (h : l1.Perm l2) :
    (heapChars l1).Perm (heapChars l2) :=
  h.flatMap_right _

theorem buildTreeGo_succ (fuel : Nat) (heap : List HuffmanNode) :
    buildTreeGo (fuel + 1) heap =
      if 1 < heap.length then
        match heappop heap with
        | none => none
        | some (node1, heap1) =>
          match heappop heap1 with
          | none => none
          | some (node2, heap2) =>
            buildTreeGo fuel
              (heappush heap2 (.mk none (node1.freq + node2.freq) (some node1) (some node2)))
      else heap.head? := rfl

theorem build_huffman_tree_step {heap : List HuffmanNode} {n1 n2 : HuffmanNode}
    {h1 h2 : List HuffmanNode} (hlen : 1 < heap.length)
    (p1 : heappop heap = some (n1, h1)) (p2 : heappop h1 = some (n2, h2)) :
    build_huffman_tree heap =
      build_huffman_tree (heappush h2 (.mk none (n1.freq + n2.freq) (some n1) (some n2))) := by
  have e1 := heappop_length p1
  have e2 := heappop_length p2
  have e3 := heappush_length h2 (HuffmanNode.mk none (n1.freq + n2.freq) (some n1) (some n2))
  unfold build_huffman_tree
  obtain ⟨m, hm⟩ : ∃ m, heap.length = m + 1 + 1 := ⟨heap.length - 2, by omega⟩
  rw [show (heappush h2 (HuffmanNode.mk none (n1.freq + n2.freq) (some n1) (some n2))).length =
    m + 1 by omega]
  rw [hm, buildTreeGo_succ]
  simp only [if_pos hlen, p1, p2]

theorem build_huffman_tree_isSome :
    ∀ (k : Nat) (heap : List HuffmanNode), heap.length = k → heap ≠ [] →
      (build_huffman_tree heap).isSome := by
  intro k
  induction k using Nat.strong_induction_on with
  | _ k ih =>
    intro heap hk hne
    by_cases hbig : 1 < heap.length
    · obtain ⟨⟨n1, hl1⟩, hp1⟩ := Option.isSome_iff_exists.mp (heappop_isSome hne)
      have e1 := heappop_length hp1
      have hne1 : hl1 ≠ [] := List.length_pos.mp (by omega)
      obtain ⟨⟨n2, hl2⟩, hp2⟩ := Option.isSome_iff_exists.mp (heappop_isSome hne1)
      have e2 := heappop_length hp2
      have e3 := heappush_length hl2 (HuffmanNode.mk none (n1.freq + n2.freq) (some n1) (some n2))
      rw [build_huffman_tree_step hbig hp1 hp2]
      exact ih (heappush hl2 (HuffmanNode.mk none (n1.freq + n2.freq) (some n1) (some n2))).length
        (by omega) _ rfl (List.length_pos.mp (by omega))
    · have hone : heap.length = 1 := by
        have := List.length_pos.mpr hne
        omega
      obtain ⟨n, hn⟩ := List.length_eq_one.mp hone
      rw [hn]
      rfl

theorem tree_chars :
    ∀ (k : Nat) (heap : List HuffmanNode) (root : HuffmanNode), heap.length = k →
      build_huffman_tree heap = some root → (optChars (some root)).Perm (heapChars heap) := by
  intro k
  induction k using Nat.strong_induction_on with
  | _ k ih =>
    intro heap root hk htree
    by_cases hbig : 1 < heap.length
    · have hne : heap ≠ [] := List.length_pos.mp (by omega)
      obtain ⟨⟨n1, hl1⟩, hp1⟩ := Option.isSome_iff_exists.mp (heappop_isSome hne)
      have e1 := heappop_length hp1
      have hne1 : hl1 ≠ [] := List.length_pos.mp (by omega)
      obtain ⟨⟨n2, hl2⟩, hp2⟩ := Option.isSome_iff_exists.mp (heappop_isSome hne1)
      have e2 := heappop_length hp2
      have e3 := heappush_length hl2 (HuffmanNode.mk none (n1.freq + n2.freq) (some n1) (some n2))
      rw [build_huffman_tree_step hbig hp1 hp2] at htree
      have step := ih (heappush hl2 (HuffmanNode.mk none (n1.freq + n2.freq)
        (some n1) (some n2))).length (by omega) _ root rfl htree
      refine step.trans ?_
      have s1 := heapChars_perm (heappush_perm hl2
        (HuffmanNode.mk none (n1.freq + n2.freq) (some n1) (some n2)))
      refine s1.trans ?_
      rw [heapChars_cons]
      have hM : optChars (some (HuffmanNode.mk none (n1.freq + n2.freq) (some n1) (some n2))) =
          optChars (some n1) ++ optChars (some n2) := by simp [optChars]
      rw [hM, List.append_assoc]
      have s2 : (optChars (some n2) ++ heapChars hl2).Perm (heapChars hl1) := by
        have := heapChars_perm (heappop_perm hp2)
        rwa [heapChars_cons] at this
      refine (s2.append_left (optChars (some n1))).trans ?_
      have s3 := heapChars_perm (heappop_perm hp1)
      rwa [heapChars_cons] at s3
    · rcases heap with _ | ⟨n, t⟩
      · cases htree
      · have : t = [] := by
          rcases t with _ | _
          · rfl
          · simp at hbig
        subst this
        have : root = n := by
          have h0 : build_huffman_tree [n] = some n := rfl
          rw [h0] at htree
          exact (Option.some.injEq .. ▸ htree).symm
        subst this
        simp [heapChars_cons, heapChars]

theorem build_heap_chars_aux :
    ∀ (f : List (Nat × Nat)) (heap : List HuffmanNode),
      (heapChars (f.foldl (fun h p => heappush h (.mk (some p.1) p.2 none none)) heap)).Perm
        (heapChars heap ++ f.map Prod.fst) := by
  intro f
  induction f with
  | nil =>
    intro heap
    simp
  | cons p t ih =>
    intro heap
    simp only [List.foldl_cons, List.map_cons]
    refine (ih (heappush heap (.mk (some p.1) p.2 none none))).trans ?_
    have h1 := heapChars_perm (heappush_perm heap (.mk (some p.1) p.2 none none))
    refine (h1.append_right _).trans ?_
    rw [heapChars_cons]
    have hleaf : optChars (some (HuffmanNode.mk (some p.1) p.2 none none)) = [p.1] := by
      simp [optChars]
    rw [hleaf]
    simp only [List.cons_append, List.nil_append, List.append_assoc]
    exact List.perm_middle.symm

theorem build_heap_chars (f : List (Nat × Nat)) :
    (heapChars (build_heap f)).Perm (f.map Prod.fst) := by
  have := build_heap_chars_aux f []
  simpa [build_heap, heapChars] using this

/-! ### Frequency dictionary facts -/

theorem bump_keys (m : List (Nat × Nat)) (c : Nat) :
    (bump m c).map Prod.fst =
      if c ∈ m.map Prod.fst then m.map Prod.fst else m.map Prod.fst ++ [c] := by
  induction m with
  | nil => simp [bump]
  | cons p t ih =>
    obtain ⟨a, n⟩ := p
    by_cases hac : a = c
    · subst hac
      simp [bump]
    · simp only [bump, if_neg hac, List.map_cons]
      rw [ih]
      by_cases hc : c ∈ t.map Prod.fst
      · rw [if_pos hc, if_pos (by simp [hc])]
      · rw [if_neg hc, if_neg ?_]
        · simp
        · simp only [List.mem_cons]
          rintro (h | h)
          · exact hac h.symm
          · exact hc h

theorem bump_keys_nodup {m : List (Nat × Nat)} {c : Nat}
    (h : (m.map Prod.fst).Nodup) : ((bump m c).map Prod.fst).Nodup := by
  rw [bump_keys]
  split
  · exact h
  next hc => simp [List.nodup_append, h, hc]

theorem bump_mem_keys (m : List (Nat × Nat)) (c x : Nat) :
    x ∈ (bump m c).map Prod.fst ↔ x ∈ m.map Prod.fst ∨ x = c := by
  rw [bump_keys]
  split
  next hc =>
    constructor
    · exact Or.inl
    · rintro (h | h)
      · exact h
      · exact h ▸ hc
  next hc => simp

theorem foldl_bump_keys_nodup :
    ∀ (data : List Nat) (m : List (Nat × Nat)), (m.map Prod.fst).Nodup →
      ((data.foldl bump m).map Prod.fst).Nodup := by
  intro data
  induction data with
  | nil => exact fun m h => h
  | cons c t ih => exact fun m h => ih (bump m c) (bump_keys_nodup h)

theorem build_frequency_dict_keys_nodup (data : List Nat) :
    ((build_frequency_dict data).map Prod.fst).Nodup :=
  foldl_bump_keys_nodup data [] (by simp)

theorem foldl_bump_mem_keys :
    ∀ (data : List Nat) (m : List (Nat × Nat)) (x : Nat),
      (x ∈ (data.foldl bump m).map Prod.fst ↔ x ∈ m.map Prod.fst ∨ x ∈ data) := by
  intro data
  induction data with
  | nil => simp
  | cons c t ih =>
    intro m x
    rw [List.foldl_cons, ih (bump m c) x, bump_mem_keys]
    simp only [List.mem_cons]
    tauto

theorem build_frequency_dict_mem_keys (data : List Nat) (x : Nat) :
    x ∈ (build_frequency_dict data).map Prod.fst ↔ x ∈ data := by
  rw [build_frequency_dict, foldl_bump_mem_keys]
  simp

theorem bump_values_le {m : List (Nat × Nat)} {B : Nat} (c : Nat)
    (h : ∀ p ∈ m, p.2 ≤ B) : ∀ p ∈ bump m c, p.2 ≤ B + 1 := by
  induction m with
  | nil =>
    intro p hp
    simp only [bump, List.mem_singleton] at hp
    subst hp
    simp
  | cons q t ih =>
    obtain ⟨a, n⟩ := q
    intro p hp
    by_cases hac : a = c
    · subst hac
      simp only [bump, if_pos rfl] at hp
      rcases List.mem_cons.mp hp with h1 | h1
      · have := h (a, n) (List.mem_cons_self ..)
        simp [h1]
        simp at this
        omega
      · have := h p (List.mem_cons_of_mem _ h1)
        omega
    · simp only [bump, if_neg hac] at hp
      rcases List.mem_cons.mp hp with h1 | h1
      · have := h (a, n) (List.mem_cons_self ..)
        subst h1
        omega
      · exact ih (fun q hq => h q (List.mem_cons_of_mem _ hq)) p h1

theorem foldl_bump_values_le :
    ∀ (data : List Nat) (m : List (Nat × Nat)) (B : Nat), (∀ p ∈ m, p.2 ≤ B) →
      ∀ p ∈ data.foldl bump m, p.2 ≤ B + data.length := by
  intro data
  induction data with
  | nil =>
    intro m B h p hp
    simpa using h p hp
  | cons c t ih =>
    intro m B h p hp
    rw [List.foldl_cons] at hp
    have := ih (bump m c) (B + 1) (bump_values_le c h) p hp
    simp only [List.length_cons]
    omega

theorem build_frequency_dict_values_le (data : List Nat) :
    ∀ p ∈ build_frequency_dict data, p.2 ≤ data.length := by
  have := foldl_bump_values_le data [] 0 (by simp)
  simpa using this

theorem nodup_bounded_length_le (l : List Nat) (hnd : l.Nodup)
    (hlt : ∀ x ∈ l, x < 256) : l.length ≤ 256 := by
  have h1 : l.toFinset.card = l.length := List.toFinset_card_of_nodup hnd
  have h2 : l.toFinset ⊆ Finset.range 256 := by
    intro x hx
    rw [Finset.mem_range]
    exact hlt x (List.mem_toFinset.mp hx)
  have h3 := Finset.card_le_card h2
  rw [h1, Finset.card_range] at h3
  exact h3

/-! ### Structure of the generated code tables -/

theorem codesOf_map_fst : ∀ (t : Option HuffmanNode) (cur : List Bool),
    (codesOf t cur).map Prod.fst = optChars t
  | none, _ => by simp [codesOf, optChars]
  | some (.mk (some c) f left right), cur => by simp [codesOf, optChars]
  | some (.mk none f left right), cur => by
    simp only [codesOf, optChars, List.map_append]
    rw [codesOf_map_fst left (cur ++ [false]), codesOf_map_fst right (cur ++ [true])]

theorem codesOf_cur_pre : ∀ (t : Option HuffmanNode) (cur : List Bool) (p : Nat × List Bool),
    p ∈ codesOf t cur → cur <+: p.2
  | none, cur, p => by simp [codesOf]
  | some (.mk (some c) f left right), cur, p => by
    simp only [codesOf, List.mem_singleton]
    intro h
    subst h
    exact List.prefix_rfl
  | some (.mk none f left right), cur, p => by
    simp only [codesOf, List.mem_append]
    rintro (h | h)
    · exact (List.prefix_append cur [false]).trans (codesOf_cur_pre left (cur ++ [false]) p h)
    · exact (List.prefix_append cur [true]).trans (codesOf_cur_pre right (cur ++ [true]) p h)

theorem cross_not_pre (cur : List Bool) (x y : Bool) (hxy : x ≠ y) (p q : List Bool)
    (hp : (cur ++ [x]) <+: p) (hq : (cur ++ [y]) <+: q) : ¬ p <+: q := by
  intro h
  obtain ⟨u, hu⟩ := hp
  obtain ⟨v, hv⟩ := hq
  rw [← hu, ← hv] at h
  rw [List.append_assoc, List.append_assoc] at h
  simp only [List.singleton_append] at h
  have h2 := (List.prefix_append_right_inj cur).mp h
  rw [List.cons_prefix_cons] at h2
  exact hxy h2.1

theorem codesOf_pairwise : ∀ (t : Option HuffmanNode) (cur : List Bool),
    List.Pairwise (fun a b : Nat × List Bool => ¬ a.2 <+: b.2 ∧ ¬ b.2 <+: a.2) (codesOf t cur)
  | none, cur => by simp [codesOf]
  | some (.mk (some c) f left right), cur => by simp [codesOf]
  | some (.mk none f left right), cur => by
    simp only [codesOf]
    rw [List.pairwise_append]
    refine ⟨codesOf_pairwise left _, codesOf_pairwise right _, ?_⟩
    intro a ha b hb
    have hpa := codesOf_cur_pre left (cur ++ [false]) a ha
    have hpb := codesOf_cur_pre right (cur ++ [true]) b hb
    exact ⟨cross_not_pre cur false true (by simp) a.2 b.2 hpa hpb,
      cross_not_pre cur true false (by simp) b.2 a.2 hpb hpa⟩

theorem codesOf_snd_nodup (t : Option HuffmanNode) (cur : List Bool) :
    ((codesOf t cur).map Prod.snd).Nodup := by
  refine List.pairwise_map.mpr ((codesOf_pairwise t cur).imp ?_)
  intro a b hab heq
  exact hab.1 (heq ▸ List.prefix_rfl)

theorem nodup_append_of_middle {α : Type} {A L R : List α} (h : (A ++ (L ++ R)).Nodup) :
    (A ++ L).Nodup := by
  rw [← List.append_assoc] at h
  exact List.Nodup.sublist (List.sublist_append_left (A ++ L) R) h

theorem build_codes_helper_eq :
    ∀ (t : Option HuffmanNode) (cur : List Bool) (st : CodeState),
      ((st.codes.map Prod.fst) ++ optChars t).Nodup →
      ((st.reverse_mapping.map Prod.fst) ++ (codesOf t cur).map Prod.snd).Nodup →
      build_codes_helper t cur st =
        ⟨st.codes ++ codesOf t cur,
          st.reverse_mapping ++ (codesOf t cur).map (fun p => (p.2, p.1))⟩
  | none, cur, st => by
    intro _ _
    simp [build_codes_helper, codesOf]
  | some (.mk (some c) f left right), cur, st => by
    intro h1 h2
    simp only [optChars] at h1
    simp only [codesOf, List.map_cons, List.map_nil] at h2 ⊢
    have hc : c ∉ st.codes.map Prod.fst := by
      have hd := (List.nodup_append.mp h1).2.2
      intro hmem
      exact hd hmem (by simp)
    have hcur : cur ∉ st.reverse_mapping.map Prod.fst := by
      have hd := (List.nodup_append.mp h2).2.2
      intro hmem
      exact hd hmem (by simp)
    simp only [build_codes_helper]
    rw [dictSet_fresh cur ((lookup'_eq_none_iff c st.codes).mpr hc),
      dictSet_fresh c ((lookup'_eq_none_iff cur st.reverse_mapping).mpr hcur)]
  | some (.mk none f left right), cur, st => by
    intro h1 h2
    have hsc : optChars (some (.mk none f left right)) = optChars left ++ optChars right := by
      simp [optChars]
    have hcc : codesOf (some (.mk none f left right)) cur =
        codesOf left (cur ++ [false]) ++ codesOf right (cur ++ [true]) := by
      simp [codesOf]
    rw [hsc] at h1
    rw [hcc] at h2
    rw [List.map_append] at h2
    have hL := build_codes_helper_eq left (cur ++ [false]) st
      (nodup_append_of_middle h1) (nodup_append_of_middle h2)
    simp only [build_codes_helper]
    rw [hL]
    have h1R : ((((st.codes ++ codesOf left (cur ++ [false])).map Prod.fst)
        ++ optChars right)).Nodup := by
      rw [List.map_append, codesOf_map_fst, List.append_assoc]
      exact h1
    have h2R : ((((st.reverse_mapping ++
        (codesOf left (cur ++ [false])).map (fun p => (p.2, p.1))).map Prod.fst)
        ++ (codesOf right (cur ++ [true])).map Prod.snd)).Nodup := by
      rw [List.map_append, List.map_map, List.append_assoc]
      have : (Prod.fst ∘ fun p : Nat × List Bool => (p.2, p.1)) = Prod.snd := rfl
      rw [this]
      exact h2
    have hR := build_codes_helper_eq right (cur ++ [true])
      ⟨st.codes ++ codesOf left (cur ++ [false]),
        st.reverse_mapping ++ (codesOf left (cur ++ [false])).map (fun p => (p.2, p.1))⟩
      h1R h2R
    rw [hR, hcc]
    simp [List.append_assoc]

/-! ### Encoding and decoding over a prefix-free code table -/

theorem build_codes_eq (root : HuffmanNode) (hnd : (optChars (some root)).Nodup) :
    build_codes root =
      ⟨codesOf (some root) [],
        (codesOf (some root) []).map (fun p => (p.2, p.1))⟩ := by
  rw [build_codes]
  have h := build_codes_helper_eq (some root) [] ⟨[], []⟩ (by simpa using hnd)
    (by simpa using codesOf_snd_nodup (some root) [])
  simpa using h

theorem get_encoded_go (codes : List (Nat × List Bool)) :
    ∀ (data : List Nat) (acc : List Bool), (∀ c ∈ data, (lookup' c codes).isSome) →
      data.foldl (fun acc char => do
          let s ← acc
          let code ← lookup' char codes
          pure (s ++ code)) (some acc) =
        some (acc ++ (data.map (fun c => (lookup' c codes).getD [])).flatten) := by
  intro data
  induction data with
  | nil =>
    intro acc _
    simp
  | cons c t ih =>
    intro acc h
    obtain ⟨v, hv⟩ := Option.isSome_iff_exists.mp (h c (List.mem_cons_self ..))
    rw [List.foldl_cons]
    have hstep : (do
        let s ← some acc
        let code ← lookup' c codes
        pure (s ++ code)) = some (acc ++ v) := by
      rw [hv]
      rfl
    rw [hstep, ih (acc ++ v) (fun x hx => h x (List.mem_cons_of_mem _ hx))]
    simp [hv, List.append_assoc]

theorem get_encoded_text_some (codes : List (Nat × List Bool)) (data : List Nat)
    (h : ∀ c ∈ data, (lookup' c codes).isSome) :
    get_encoded_text codes data =
      some ((data.map (fun c => (lookup' c codes).getD [])).flatten) := by
  rw [get_encoded_text]
  have := get_encoded_go codes data [] h
  simpa using this

theorem decode_text_step (rm : List (List Bool × Nat)) :
    ∀ (code : List Bool) (acc : List Bool) (out : List Nat) (c : Nat) (rest : List Bool),
      code ≠ [] →
      lookup' (acc ++ code) rm = some c →
      (∀ pre : List Bool, pre <+: code → pre ≠ code → lookup' (acc ++ pre) rm = none) →
      (code ++ rest).foldl (decodeStep rm) (acc, out) =
        rest.foldl (decodeStep rm) ([], out ++ [c]) := by
  intro code
  induction code with
  | nil => exact fun acc out c rest h => (h rfl).elim
  | cons b code' ih =>
    intro acc out c rest _ hfull hpre
    rw [List.cons_append, List.foldl_cons]
    rcases code' with _ | ⟨b2, code''⟩
    · have hcur : lookup' (acc ++ [b]) rm = some c := hfull
      simp only [decodeStep, hcur]
      rfl
    · have hb : lookup' (acc ++ [b]) rm = none := by
        have h1 : [b] <+: b :: b2 :: code'' := by
          rw [List.cons_prefix_cons]
          exact ⟨rfl, List.nil_prefix⟩
        exact hpre [b] h1 (by simp)
      simp only [decodeStep, hb]
      have happ : (acc ++ [b]) ++ (b2 :: code'') = acc ++ (b :: b2 :: code'') := by
        simp
      refine ih (acc ++ [b]) out c rest (by simp) (by rw [happ]; exact hfull) ?_
      intro pre hp hne
      have h1 : (b :: pre) <+: (b :: b2 :: code'') := by
        rw [List.cons_prefix_cons]
        exact ⟨rfl, hp⟩
      have h2 : (b :: pre) ≠ (b :: b2 :: code'') := by
        intro h
        exact hne (by injection h)
      have := hpre (b :: pre) h1 h2
      rwa [show acc ++ b :: pre = (acc ++ [b]) ++ pre by simp] at this

theorem decode_text_concat (rm : List (List Bool × Nat))
    (hnd : (rm.map Prod.fst).Nodup)
    (hpf : ∀ p q : List Bool, p ∈ rm.map Prod.fst → q ∈ rm.map Prod.fst → p ≠ q →
      ¬ p <+: q) :
    ∀ (msg : List Nat) (ps : List (List Bool)) (out : List Nat),
      List.Forall₂ (fun c p => p ≠ [] ∧ (p, c) ∈ rm) msg ps →
      ps.flatten.foldl (decodeStep rm) (([] : List Bool), out) = ([], out ++ msg) := by
  intro msg ps
  induction msg generalizing ps with
  | nil =>
    intro out hf
    cases hf
    simp
  | cons c msg' ih =>
    intro out hf
    rcases hf with _ | ⟨⟨hne, hmem⟩, htail⟩
    rename_i p ps'
    rw [List.flatten_cons]
    have hfull : lookup' ([] ++ p) rm = some c := by
      rw [List.nil_append]
      exact lookup'_eq_some_of_mem hnd hmem
    have hpre : ∀ pre : List Bool, pre <+: p → pre ≠ p → lookup' ([] ++ pre) rm = none := by
      intro pre hp hne2
      rw [List.nil_append]
      by_contra hcon
      obtain ⟨c', hc'⟩ := Option.ne_none_iff_exists.mp (by exact hcon)
      have hmem2 := mem_of_lookup'_eq_some hc'.symm
      have hkey : pre ∈ rm.map Prod.fst := List.mem_map.mpr ⟨(pre, c'), hmem2, rfl⟩
      have hkeyp : p ∈ rm.map Prod.fst := List.mem_map.mpr ⟨(p, c), hmem, rfl⟩
      exact hpf pre p hkey hkeyp hne2 hp
    rw [decode_text_step rm p [] out c ps'.flatten hne hfull hpre]
    rw [ih ps' (out ++ [c]) htail]
    simp

/-! ### Pipeline assembly facts -/

theorem build_heap_length_aux :
    ∀ (f : List (Nat × Nat)) (heap : List HuffmanNode),
      (f.foldl (fun h p => heappush h (.mk (some p.1) p.2 none none)) heap).length =
        heap.length + f.length := by
  intro f
  induction f with
  | nil => simp
  | cons p t ih =>
    intro heap
    rw [List.foldl_cons, ih, heappush_length]
    simp only [List.length_cons]
    omega

theorem build_heap_length (f : List (Nat × Nat)) : (build_heap f).length = f.length := by
  have := build_heap_length_aux f []
  simpa [build_heap] using this

theorem mem_codesOf_of_char {t : Option HuffmanNode} {c : Nat} (cur : List Bool)
    (h : c ∈ optChars t) : ∃ p, (c, p) ∈ codesOf t cur := by
  rw [← codesOf_map_fst t cur] at h
  obtain ⟨⟨c', p⟩, hmem, heq⟩ := List.mem_map.mp h
  exact ⟨p, by simpa [← heq] using hmem⟩

theorem two_mem_two_le_length {α : Type} {l : List α} {x y : α} (hx : x ∈ l) (hy : y ∈ l)
    (hxy : x ≠ y) : 2 ≤ l.length := by
  rcases l with _ | ⟨a, l'⟩
  · simp at hx
  rcases l' with _ | ⟨b, l''⟩
  · simp at hx hy
    exact (hxy (hx.trans hy.symm)).elim
  · simp only [List.length_cons]
    omega

theorem root_internal {root : HuffmanNode} (h : 2 ≤ (optChars (some root)).length) :
    ∃ f left right, root = .mk none f left right := by
  rcases root with ⟨c, f, left, right⟩
  rcases c with _ | c
  · exact ⟨f, left, right, rfl⟩
  · simp [optChars] at h

theorem codesOf_internal_snd_ne_nil {f : Nat} {left right : Option HuffmanNode}
    {p : Nat × List Bool} (h : p ∈ codesOf (some (.mk none f left right)) []) :
    p.2 ≠ [] := by
  have h2 : codesOf (some (HuffmanNode.mk none f left right)) [] =
      codesOf left [false] ++ codesOf right [true] := by
    simp [codesOf]
  rw [h2] at h
  rcases List.mem_append.mp h with h3 | h3
  · obtain ⟨u, hu⟩ := codesOf_cur_pre left [false] p h3
    intro hnil
    rw [hnil] at hu
    cases hu
  · obtain ⟨u, hu⟩ := codesOf_cur_pre right [true] p h3
    intro hnil
    rw [hnil] at hu
    cases hu

theorem codesOf_paths_nonpre (t : Option HuffmanNode) (cur : List Bool) :
    ∀ p q : List Bool, p ∈ (codesOf t cur).map Prod.snd →
      q ∈ (codesOf t cur).map Prod.snd → p ≠ q → ¬ p <+: q := by
  intro p q hp hq hne
  obtain ⟨a, ha, hap⟩ := List.mem_map.mp hp
  obtain ⟨b, hb, hbq⟩ := List.mem_map.mp hq
  have hab : a ≠ b := by
    intro h
    exact hne (by rw [← hap, ← hbq, h])
  have hsymm : Symmetric (fun a b : Nat × List Bool => ¬ a.2 <+: b.2 ∧ ¬ b.2 <+: a.2) :=
    fun a b h => ⟨h.2, h.1⟩
  have hr := List.Pairwise.forall hsymm (codesOf_pairwise t cur) ha hb hab
  rw [← hap, ← hbq]
  exact hr.1

theorem freq_records_eq (f : List (Nat × Nat)) (h1 : ∀ p ∈ f, p.1 < 256)
    (h2 : ∀ p ∈ f, p.2 < 4294967296) :
    freq_records f = some (f.flatMap (fun p => p.1 :: natToBytes 4 p.2)) := by
  induction f with
  | nil => simp [freq_records]
  | cons p t ih =>
    obtain ⟨c, v⟩ := p
    have hb : byte1 c = some [c] :=
      if_pos (h1 (c, v) (List.mem_cons_self ..))
    have hv : toBytesBE 4 v = some (natToBytes 4 v) := by
      rw [toBytesBE, if_pos]
      have := h2 (c, v) (List.mem_cons_self ..)
      norm_num
      omega
    rw [freq_records, hb, hv,
      ih (fun q hq => h1 q (List.mem_cons_of_mem _ hq))
        (fun q hq => h2 q (List.mem_cons_of_mem _ hq))]
    simp [List.flatMap_cons]

theorem read_freq_loop_eq :
    ∀ (f : List (Nat × Nat)) (tail : List Nat) (acc : List (Nat × Nat)),
      (∀ p ∈ f, p.2 < 4294967296) →
      ((acc.map Prod.fst ++ f.map Prod.fst)).Nodup →
      read_freq_loop f.length (f.flatMap (fun p => p.1 :: natToBytes 4 p.2) ++ tail) acc =
        some (acc ++ f, tail) := by
  intro f
  induction f with
  | nil =>
    intro tail acc _ _
    simp [read_freq_loop]
  | cons p t ih =>
    intro tail acc hlt hnd
    obtain ⟨c, v⟩ := p
    rw [List.flatMap_cons, List.length_cons]
    have hstream : ((c :: natToBytes 4 v) ++ t.flatMap (fun p => p.1 :: natToBytes 4 p.2))
        ++ tail = c :: (natToBytes 4 v ++ (t.flatMap (fun p => p.1 :: natToBytes 4 p.2)
        ++ tail)) := by
      simp
    rw [hstream, read_freq_loop]
    have hhead : (c :: (natToBytes 4 v ++ (t.flatMap (fun p => p.1 :: natToBytes 4 p.2)
        ++ tail))).head? = some c := rfl
    rw [hhead]
    have hdrop1 : (c :: (natToBytes 4 v ++ (t.flatMap (fun p => p.1 :: natToBytes 4 p.2)
        ++ tail))).drop 1 = natToBytes 4 v ++ (t.flatMap (fun p => p.1 :: natToBytes 4 p.2)
        ++ tail) := rfl
    have htake : (natToBytes 4 v ++ (t.flatMap (fun p => p.1 :: natToBytes 4 p.2)
        ++ tail)).take 4 = natToBytes 4 v := List.take_left' (natToBytes_length 4 v)
    have hfrom : fromBytesBE (natToBytes 4 v) = v := by
      apply fromBytesBE_natToBytes
      have := hlt (c, v) (List.mem_cons_self ..)
      norm_num
      omega
    have hdrop5 : (c :: (natToBytes 4 v ++ (t.flatMap (fun p => p.1 :: natToBytes 4 p.2)
        ++ tail))).drop 5 = t.flatMap (fun p => p.1 :: natToBytes 4 p.2) ++ tail := by
      rw [show (5 : Nat) = 4 + 1 from rfl, List.drop_succ_cons]
      exact List.drop_left' (natToBytes_length 4 v)
    have hfresh : lookup' c acc = none := by
      rw [lookup'_eq_none_iff]
      simp only [List.map_cons] at hnd
      have hd := (List.nodup_append.mp hnd).2.2
      intro hmem
      exact hd hmem (by simp)
    simp only [hdrop1, htake, hfrom, hdrop5, Option.bind_eq_bind, Option.some_bind]
    rw [dictSet_fresh v hfresh]
    have hnd2 : (((acc ++ [(c, v)]).map Prod.fst) ++ t.map Prod.fst).Nodup := by
      simp only [List.map_append, List.map_cons, List.map_nil] at hnd ⊢
      rw [List.append_assoc]
      simpa using hnd
    have := ih tail (acc ++ [(c, v)]) (fun q hq => hlt q (List.mem_cons_of_mem _ hq)) hnd2
    rw [this]
    simp

theorem getByteArrayGo_flat :
    ∀ (n : Nat) (s : List Bool), s.length = n → n % 8 = 0 →
      (getByteArrayGo s).flatMap (natToBits 8) = s := by
  intro n
  induction n using Nat.strong_induction_on with
  | _ n ih =>
    intro s hlen hmod
    rcases s with _ | ⟨b0, s⟩
    · simp [getByteArrayGo]
    rcases s with _ | ⟨b1, s⟩
    · simp at hlen; omega
    rcases s with _ | ⟨b2, s⟩
    · simp at hlen; omega
    rcases s with _ | ⟨b3, s⟩
    · simp at hlen; omega
    rcases s with _ | ⟨b4, s⟩
    · simp at hlen; omega
    rcases s with _ | ⟨b5, s⟩
    · simp at hlen; omega
    rcases s with _ | ⟨b6, s⟩
    · simp at hlen; omega
    rcases s with _ | ⟨b7, s⟩
    · simp at hlen; omega
    simp only [List.length_cons] at hlen
    rw [getByteArrayGo, List.flatMap_cons]
    have hchunk : natToBits 8 (bitsToNat [b0, b1, b2, b3, b4, b5, b6, b7]) =
        [b0, b1, b2, b3, b4, b5, b6, b7] :=
      natToBits_bitsToNat_of_length rfl
    rw [hchunk]
    have hrec := ih (s.length) (by omega) s rfl (by omega)
    rw [hrec]
    simp

theorem pad_length (enc : List Bool) :
    (pad_encoded_text enc).length = 8 + (enc.length + (8 - enc.length % 8)) := by
  rw [pad_encoded_text]
  simp [natToBits_length, List.length_replicate]

theorem pad_length_mod (enc : List Bool) : (pad_encoded_text enc).length % 8 = 0 := by
  rw [pad_length]
  omega

theorem get_byte_array_pad (enc : List Bool) :
    get_byte_array (pad_encoded_text enc) =
      some (getByteArrayGo (pad_encoded_text enc)) := by
  rw [get_byte_array, if_neg]
  push_neg
  exact pad_length_mod enc

theorem remove_padding_pad (enc : List Bool) :
    remove_padding (pad_encoded_text enc) = some enc := by
  have hpadlt : 8 - enc.length % 8 < 256 := by omega
  have hlen8 : (natToBits 8 (8 - enc.length % 8)).length = 8 := natToBits_length ..
  have hne0 : ¬ (8 - enc.length % 8 = 0) := by omega
  rw [pad_encoded_text, remove_padding]
  rw [if_neg (by simp [List.isEmpty_iff]; intro h; cases h)]
  rw [List.take_left' hlen8, List.drop_left' hlen8,
    bitsToNat_natToBits (by norm_num; omega), if_neg hne0]
  have hlen2 : (enc ++ List.replicate (8 - enc.length % 8) false).length -
      (8 - enc.length % 8) = enc.length := by
    simp [List.length_replicate]
  rw [hlen2, List.take_left' rfl]

theorem compress_eq (data : List Nat) (hb : ∀ c ∈ data, c < 256)
    (hlen : data.length < 4294967296) (hne : data ≠ []) :
    ∃ (root : HuffmanNode) (enc : List Bool),
      build_huffman_tree (build_heap (build_frequency_dict data)) = some root ∧
      (optChars (some root)).Perm ((build_frequency_dict data).map Prod.fst) ∧
      (build_codes root).codes = codesOf (some root) [] ∧
      (build_codes root).reverse_mapping = (codesOf (some root) []).map (fun p => (p.2, p.1)) ∧
      get_encoded_text (build_codes root).codes data = some enc ∧
      enc = (data.map (fun c => (lookup' c (codesOf (some root) [])).getD [])).flatten ∧
      compress data =
        some (natToBytes 2 (build_frequency_dict data).length ++
          ((build_frequency_dict data).flatMap (fun p => p.1 :: natToBytes 4 p.2) ++
            getByteArrayGo (pad_encoded_text enc))) := by
  have hknd := build_frequency_dict_keys_nodup data
  have hkmem : ∀ x, x ∈ (build_frequency_dict data).map Prod.fst ↔ x ∈ data :=
    build_frequency_dict_mem_keys data
  have hfne : build_frequency_dict data ≠ [] := by
    rcases data with _ | ⟨c, t⟩
    · exact (hne rfl).elim
    · intro hf
      have := (hkmem c).mpr (List.mem_cons_self ..)
      rw [hf] at this
      simp at this
  have hheapne : build_heap (build_frequency_dict data) ≠ [] := by
    have h1 := build_heap_length (build_frequency_dict data)
    have h2 : 0 < (build_frequency_dict data).length := List.length_pos.mpr hfne
    exact List.length_pos.mp (by omega)
  obtain ⟨root, hroot⟩ := Option.isSome_iff_exists.mp
    (build_huffman_tree_isSome (build_heap (build_frequency_dict data)).length
      (build_heap (build_frequency_dict data)) rfl hheapne)
  have hperm : (optChars (some root)).Perm ((build_frequency_dict data).map Prod.fst) :=
    (tree_chars (build_heap (build_frequency_dict data)).length _ root rfl hroot).trans
      (build_heap_chars (build_frequency_dict data))
  have hnd : (optChars (some root)).Nodup := hperm.symm.nodup hknd
  have hcodes := build_codes_eq root hnd
  have hsome : ∀ c ∈ data, (lookup' c (codesOf (some root) [])).isSome := by
    intro c hc
    have h1 : c ∈ optChars (some root) := hperm.mem_iff.mpr ((hkmem c).mpr hc)
    obtain ⟨p, hp⟩ := mem_codesOf_of_char [] h1
    rw [lookup'_eq_some_of_mem (by rw [codesOf_map_fst]; exact hnd) hp]
    rfl
  have henc : get_encoded_text (build_codes root).codes data =
      some ((data.map (fun c => (lookup' c (codesOf (some root) [])).getD [])).flatten) := by
    rw [hcodes]
    exact get_encoded_text_some _ data hsome
  have hklt : ∀ x ∈ (build_frequency_dict data).map Prod.fst, x < 256 :=
    fun x hx => hb x ((hkmem x).mp hx)
  have hflen : (build_frequency_dict data).length ≤ 256 := by
    have := nodup_bounded_length_le _ hknd hklt
    simpa using this
  have hhdr : toBytesBE 2 (build_frequency_dict data).length =
      some (natToBytes 2 (build_frequency_dict data).length) := by
    rw [toBytesBE, if_pos]
    norm_num
    omega
  have hrecs : freq_records (build_frequency_dict data) =
      some ((build_frequency_dict data).flatMap (fun p => p.1 :: natToBytes 4 p.2)) := by
    apply freq_records_eq
    · intro p hp
      exact hklt p.1 (List.mem_map.mpr ⟨p, hp, rfl⟩)
    · intro p hp
      have := build_frequency_dict_values_le data p hp
      omega
  refine ⟨root, _, hroot, hperm, congrArg CodeState.codes hcodes,
    congrArg CodeState.reverse_mapping hcodes, henc, rfl, ?_⟩
  rw [compress]
  simp only [hroot, Option.bind_eq_bind, Option.some_bind]
  rw [henc]
  simp only [Option.some_bind]
  rw [get_byte_array_pad]
  simp only [Option.some_bind]
  rw [hhdr]
  simp only [Option.some_bind]
  rw [hrecs]
  simp only [Option.some_bind]
  simp [List.append_assoc]

theorem decompress_compress (data : List Nat) (hb : ∀ c ∈ data, c < 256)
    (hlen : data.length < 4294967296) (hdist : ∃ x ∈ data, ∃ y ∈ data, x ≠ y) :
    ∃ out, compress data = some out ∧ decompress out = some data := by
  obtain ⟨x, hx, y, hy, hxy⟩ := hdist
  have hne : data ≠ [] := by
    intro h
    rw [h] at hx
    simp at hx
  obtain ⟨root, enc, hroot, hperm, hcodes, hrm, henc, hencdef, hcomp⟩ :=
    compress_eq data hb hlen hne
  refine ⟨_, hcomp, ?_⟩
  have hknd := build_frequency_dict_keys_nodup data
  have hkmem := build_frequency_dict_mem_keys data
  have hflen : (build_frequency_dict data).length ≤ 256 := by
    have hklt : ∀ z ∈ (build_frequency_dict data).map Prod.fst, z < 256 :=
      fun z hz => hb z ((hkmem z).mp hz)
    have := nodup_bounded_length_le _ hknd hklt
    simpa using this
  rw [decompress]
  have htake2 : (natToBytes 2 (build_frequency_dict data).length ++
      ((build_frequency_dict data).flatMap (fun p => p.1 :: natToBytes 4 p.2) ++
        getByteArrayGo (pad_encoded_text enc))).take 2 =
      natToBytes 2 (build_frequency_dict data).length :=
    List.take_left' (natToBytes_length 2 _)
  have hdrop2 : (natToBytes 2 (build_frequency_dict data).length ++
      ((build_frequency_dict data).flatMap (fun p => p.1 :: natToBytes 4 p.2) ++
        getByteArrayGo (pad_encoded_text enc))).drop 2 =
      (build_frequency_dict data).flatMap (fun p => p.1 :: natToBytes 4 p.2) ++
        getByteArrayGo (pad_encoded_text enc) :=
    List.drop_left' (natToBytes_length 2 _)
  rw [htake2, hdrop2]
  have hsize : fromBytesBE (natToBytes 2 (build_frequency_dict data).length) =
      (build_frequency_dict data).length := by
    apply fromBytesBE_natToBytes
    norm_num
    omega
  rw [hsize]
  have hread := read_freq_loop_eq (build_frequency_dict data)
    (getByteArrayGo (pad_encoded_text enc)) []
    (fun p hp => by have := build_frequency_dict_values_le data p hp; omega)
    (by simpa using hknd)
  rw [hread]
  simp only [Option.bind_eq_bind, Option.some_bind, List.nil_append]
  rw [hroot]
  simp only [Option.some_bind]
  have hflat : (getByteArrayGo (pad_encoded_text enc)).flatMap (natToBits 8) =
      pad_encoded_text enc :=
    getByteArrayGo_flat (pad_encoded_text enc).length (pad_encoded_text enc) rfl
      (pad_length_mod enc)
  rw [hflat, remove_padding_pad]
  simp only [Option.some_bind]
  -- it remains to show the decoded text is the original data
  have hndkeys : ((build_codes root).reverse_mapping.map Prod.fst).Nodup := by
    rw [hrm, List.map_map]
    exact codesOf_snd_nodup (some root) []
  have hkeysid : (build_codes root).reverse_mapping.map Prod.fst =
      (codesOf (some root) []).map Prod.snd := by
    rw [hrm, List.map_map]
    rfl
  have hpf : ∀ p q : List Bool, p ∈ (build_codes root).reverse_mapping.map Prod.fst →
      q ∈ (build_codes root).reverse_mapping.map Prod.fst → p ≠ q → ¬ p <+: q := by
    rw [hkeysid]
    exact codesOf_paths_nonpre (some root) []
  have hbig : 2 ≤ (optChars (some root)).length := by
    rw [hperm.length_eq]
    exact two_mem_two_le_length ((hkmem x).mpr hx) ((hkmem y).mpr hy) hxy
  have hndc : (optChars (some root)).Nodup := hperm.symm.nodup hknd
  have hf2 : List.Forall₂ (fun c p => p ≠ [] ∧ (p, c) ∈ (build_codes root).reverse_mapping)
      data (data.map (fun c => (lookup' c (codesOf (some root) [])).getD [])) := by
    rw [List.forall₂_map_right_iff, List.forall₂_same]
    intro c hc
    have h1 : c ∈ optChars (some root) := hperm.mem_iff.mpr ((hkmem c).mpr hc)
    obtain ⟨p, hp⟩ := mem_codesOf_of_char [] h1
    have hlook : lookup' c (codesOf (some root) []) = some p :=
      lookup'_eq_some_of_mem (by rw [codesOf_map_fst]; exact hndc) hp
    rw [hlook]
    constructor
    · obtain ⟨fr, left, right, hrooteq⟩ := root_internal hbig
      subst hrooteq
      exact codesOf_internal_snd_ne_nil hp
    · rw [hrm]
      exact List.mem_map.mpr ⟨(c, p), hp, rfl⟩
  have hdec := decode_text_concat (build_codes root).reverse_mapping hndkeys hpf data
    (data.map (fun c => (lookup' c (codesOf (some root) [])).getD [])) [] hf2
  rw [decode_text, hencdef, hdec]
  simp

set_option maxRecDepth 4000

/-! ### Concrete evaluations of the heap routines -/

theorem heappush_nil (n : HuffmanNode) : heappush [] n = [n] := by
  unfold heappush siftdown siftdownLoop
  simp

theorem heappush_one_one : heappush [HuffmanNode.mk (some 97) 1 none none]
    (HuffmanNode.mk (some 98) 1 none none) =
    [HuffmanNode.mk (some 97) 1 none none, HuffmanNode.mk (some 98) 1 none none] := by
  simp [heappush, siftdown, siftdownLoop, HuffmanNode.freq, dummyNode]

theorem build_heap_a : build_heap [(97, 3)] = [HuffmanNode.mk (some 97) 3 none none] := by
  rw [build_heap, List.foldl_cons, List.foldl_nil]
  exact heappush_nil _

theorem build_tree_a : build_huffman_tree [HuffmanNode.mk (some 97) 3 none none] =
    some (HuffmanNode.mk (some 97) 3 none none) := rfl

theorem build_codes_a : build_codes (HuffmanNode.mk (some 97) 3 none none) =
    ⟨[(97, [])], [([], 97)]⟩ := by
  simp [build_codes, build_codes_helper, dictSet, lookup']

theorem compress_a : compress [97, 97, 97] = some [0, 1, 97, 0, 0, 0, 3, 8, 0] := by
  rw [compress]
  have hf : build_frequency_dict [97, 97, 97] = [(97, 3)] := rfl
  simp only [hf, build_heap_a, build_tree_a, Option.bind_eq_bind, Option.some_bind,
    build_codes_a]
  decide

theorem decompress_a : decompress [0, 1, 97, 0, 0, 0, 3, 8, 0] = some [] := by
  rw [decompress]
  have h1 : fromBytesBE ([0, 1, 97, 0, 0, 0, 3, 8, 0].take 2) = 1 := by decide
  have h2 : read_freq_loop 1 ([0, 1, 97, 0, 0, 0, 3, 8, 0].drop 2) [] =
      some ([(97, 3)], [8, 0]) := by decide
  simp only [h1, h2, Option.bind_eq_bind, Option.some_bind, build_heap_a, build_tree_a,
    build_codes_a]
  decide

theorem build_heap_ab : build_heap [(97, 1), (98, 1)] =
    [HuffmanNode.mk (some 97) 1 none none, HuffmanNode.mk (some 98) 1 none none] := by
  rw [build_heap, List.foldl_cons, List.foldl_cons, List.foldl_nil, heappush_nil]
  exact heappush_one_one

theorem build_tree_ab : build_huffman_tree
    [HuffmanNode.mk (some 97) 1 none none, HuffmanNode.mk (some 98) 1 none none] =
    some (HuffmanNode.mk none 2 (some (HuffmanNode.mk (some 97) 1 none none))
      (some (HuffmanNode.mk (some 98) 1 none none))) := by
  simp [build_huffman_tree, buildTreeGo, heappop, heappush, siftup, siftupLoop, siftdown,
    siftdownLoop, HuffmanNode.freq, dummyNode]

theorem build_codes_ab : build_codes (HuffmanNode.mk none 2
    (some (HuffmanNode.mk (some 97) 1 none none))
    (some (HuffmanNode.mk (some 98) 1 none none))) =
    ⟨[(97, [false]), (98, [true])], [([false], 97), ([true], 98)]⟩ := by
  simp [build_codes, build_codes_helper, dictSet, lookup']

theorem compress_ab : compress [97, 98] =
    some [0, 2, 97, 0, 0, 0, 1, 98, 0, 0, 0, 1, 6, 64] := by
  rw [compress]
  have hf : build_frequency_dict [97, 98] = [(97, 1), (98, 1)] := rfl
  simp only [hf, build_heap_ab, build_tree_ab, Option.bind_eq_bind, Option.some_bind,
    build_codes_ab]
  decide

theorem decompress_ab_truncated : decompress [0, 2, 97, 0, 0, 0, 1, 98, 0, 0, 0, 1, 6] =
    some [] := by
  rw [decompress]
  have h1 : fromBytesBE ([0, 2, 97, 0, 0, 0, 1, 98, 0, 0, 0, 1, 6].take 2) = 2 := by decide
  have h2 : read_freq_loop 2 ([0, 2, 97, 0, 0, 0, 1, 98, 0, 0, 0, 1, 6].drop 2) [] =
      some ([(97, 1), (98, 1)], [6]) := by decide
  simp only [h1, h2, Option.bind_eq_bind, Option.some_bind, build_heap_ab, build_tree_ab,
    build_codes_ab]
  decide

/-! ### Shape of every container `compress` produces -/

theorem toBytesBE_some_eq {k n : Nat} {l : List Nat} (h : toBytesBE k n = some l) :
    l = natToBytes k n := by
  rw [toBytesBE] at h
  split at h
  · exact (Option.some.injEq .. ▸ h).symm
  · cases h

theorem byte1_some_eq {c : Nat} {l : List Nat} (h : byte1 c = some l) : l = [c] := by
  rw [byte1] at h
  split at h
  · exact (Option.some.injEq .. ▸ h).symm
  · cases h

theorem get_byte_array_some_eq {p : List Bool} {ba : List Nat}
    (h : get_byte_array p = some ba) : ba = getByteArrayGo p := by
  rw [get_byte_array] at h
  split at h
  · cases h
  · exact (Option.some.injEq .. ▸ h).symm

theorem freq_records_some_eq :
    ∀ {f : List (Nat × Nat)} {recs : List Nat}, freq_records f = some recs →
      recs = f.flatMap (fun p => p.1 :: natToBytes 4 p.2) := by
  intro f
  induction f with
  | nil =>
    intro recs h
    rw [freq_records] at h
    simpa using h.symm
  | cons p t ih =>
    intro recs h
    obtain ⟨c, v⟩ := p
    rw [freq_records] at h
    simp only [Option.bind_eq_bind, Option.bind_eq_some, Option.pure_def,
      Option.some.injEq] at h
    obtain ⟨bc, hbc, fv, hfv, rest, hrest, hout⟩ := h
    rw [byte1_some_eq hbc, toBytesBE_some_eq hfv, ih hrest] at hout
    rw [← hout, List.flatMap_cons]
    simp

theorem getByteArrayGo_append8 (a rest : List Bool) (h : a.length = 8) :
    getByteArrayGo (a ++ rest) = bitsToNat a :: getByteArrayGo rest := by
  rcases a with _ | ⟨b0, a⟩
  · simp at h
  rcases a with _ | ⟨b1, a⟩
  · simp at h
  rcases a with _ | ⟨b2, a⟩
  · simp at h
  rcases a with _ | ⟨b3, a⟩
  · simp at h
  rcases a with _ | ⟨b4, a⟩
  · simp at h
  rcases a with _ | ⟨b5, a⟩
  · simp at h
  rcases a with _ | ⟨b6, a⟩
  · simp at h
  rcases a with _ | ⟨b7, a⟩
  · simp at h
  rcases a with _ | ⟨b8, a⟩
  · rfl
  · simp at h

theorem compress_some_shape {data out : List Nat} (h : compress data = some out) :
    ∃ (root : HuffmanNode) (enc : List Bool),
      build_huffman_tree (build_heap (build_frequency_dict data)) = some root ∧
      get_encoded_text (build_codes root).codes data = some enc ∧
      get_byte_array (pad_encoded_text enc) = some (getByteArrayGo (pad_encoded_text enc)) ∧
      out = natToBytes 2 (build_frequency_dict data).length ++
        ((build_frequency_dict data).flatMap (fun p => p.1 :: natToBytes 4 p.2) ++
          getByteArrayGo (pad_encoded_text enc)) := by
  rw [compress] at h
  simp only [Option.bind_eq_bind, Option.bind_eq_some, Option.pure_def,
    Option.some.injEq] at h
  obtain ⟨root, hroot, enc, henc, ba, hba, hdr, hhdr, recs, hrecs, hout⟩ := h
  have hba2 := get_byte_array_some_eq hba
  have hhdr2 := toBytesBE_some_eq hhdr
  have hrecs2 := freq_records_some_eq hrecs
  refine ⟨root, enc, hroot, henc, ?_, ?_⟩
  · rw [← hba2]
    exact hba
  · rw [← hout, hba2, hhdr2, hrecs2, List.append_assoc]

theorem pad_first_byte (enc : List Bool) :
    (getByteArrayGo (pad_encoded_text enc)).head? = some (8 - enc.length % 8) := by
  rw [pad_encoded_text, getByteArrayGo_append8 _ _ (natToBits_length 8 _),
    bitsToNat_natToBits (by
      have h : (2 : Nat) ^ 8 = 256 := by norm_num
      omega)]
  rfl

theorem pad_field (enc : List Bool) :
    bitsToNat ((pad_encoded_text enc).take 8) = 8 - enc.length % 8 := by
  rw [pad_encoded_text, List.take_left' (natToBits_length 8 _)]
  exact bitsToNat_natToBits (by
      have h : (2 : Nat) ^ 8 = 256 := by norm_num
      omega)

/-! ### The claims -/

/-- C1: the specification claims decompress(compress(B)) = B for every
finite byte sequence B, including B empty and B a single repeated byte.
The code violates both degenerate cases: a single-symbol input is assigned
the empty code, so no data bits are written and decompression returns the
empty sequence instead of the input; compressing the empty sequence
crashes with an IndexError at `heap[0]` (modelled as `none`). -/
theorem c1_roundtrip_fails_on_degenerate_input :
    (compress [97, 97, 97]).bind decompress = some [] ∧
      some [] ≠ some ([97, 97, 97] : List Nat) ∧
      compress ([] : List Nat) = none := by
  refine ⟨?_, by simp, by decide⟩
  rw [compress_a]
  simpa using decompress_a

/-- C2: the specification claims every symbol's code has length at least
one, even when only one distinct symbol exists, the builder producing at
least one bit of depth.  The code violates this: for the one-symbol
frequency table {97: 3} the builder returns the bare leaf (no synthetic
root), and the code table maps symbol 97 to the empty bit string. -/
theorem c2_single_symbol_gets_empty_code :
    build_huffman_tree (build_heap [(97, 3)]) =
      some (HuffmanNode.mk (some 97) 3 none none) ∧
      (build_codes (HuffmanNode.mk (some 97) 3 none none)).codes = [(97, [])] ∧
      ¬ 1 ≤ (([] : List Bool)).length := by
  refine ⟨?_, ?_, by simp⟩
  · rw [build_heap_a]
    exact build_tree_a
  · rw [build_codes_a]

/-- C3: the specification claims that exhausting the bit sequence mid-code
is reported as a corruption/truncation error.  The code violates this:
`decode_text` silently discards an incomplete trailing code and returns
the bytes decoded so far (its type has no error outcome at all), and
decompressing the valid container for b"ab" with its trailing byte removed
silently returns the empty sequence instead of an error. -/
theorem c3_truncation_is_silent :
    decode_text [([false], 97), ([true, false], 98), ([true, true], 99)]
      [false, true] = [97] ∧
      decompress [0, 2, 97, 0, 0, 0, 1, 98, 0, 0, 0, 1, 6] = some [] :=
  ⟨by decide, decompress_ab_truncated⟩

/-- C4 counterexample: on an encoded text whose length is already a
multiple of 8 (here the empty bit string, which every single-symbol input
produces), `pad_encoded_text` appends 8 filler bits — not the minimum 0 —
and stores 8 in the padding-count field, outside the claimed range 0..7. -/
theorem c4_counterexample_padding_eight :
    (pad_encoded_text []).length = 16 ∧
      bitsToNat ((pad_encoded_text []).take 8) = 8 ∧
      ¬ bitsToNat ((pad_encoded_text []).take 8) ≤ 7 := by
  decide

/-- C4 (amended): `pad_encoded_text` appends `8 - len % 8` trailing zero
bits, a value between 1 and 8 inclusive (8 rather than 0 when the length
is already a multiple of 8), and the 8-bit padding-count field stores
exactly that value. -/
theorem c4_amended_padding_count (enc : List Bool) :
    pad_encoded_text enc =
      natToBits 8 (8 - enc.length % 8) ++
        (enc ++ List.replicate (8 - enc.length % 8) false) ∧
      1 ≤ 8 - enc.length % 8 ∧ 8 - enc.length % 8 ≤ 8 ∧
      bitsToNat ((pad_encoded_text enc).take 8) = 8 - enc.length % 8 :=
  ⟨rfl, by omega, by omega, pad_field enc⟩

/-- C5: the output of the padding step always has bit length an exact
multiple of 8, so the `exit(0)` branch of `get_byte_array` (the "not
padded properly" error) is unreachable on padded input, and the 8-bit
padding-count field, read back as an integer, equals the number of zero
filler bits actually appended (total length minus the 8 header bits minus
the original length). -/
theorem c5_padding_multiple_of_eight (enc : List Bool) :
    (pad_encoded_text enc).length % 8 = 0 ∧
      get_byte_array (pad_encoded_text enc) =
        some (getByteArrayGo (pad_encoded_text enc)) ∧
      bitsToNat ((pad_encoded_text enc).take 8) =
        (pad_encoded_text enc).length - 8 - enc.length := by
  refine ⟨pad_length_mod enc, get_byte_array_pad enc, ?_⟩
  rw [pad_field, pad_length]
  omega

/-- C6: in every code table generated from a Huffman tree built over a
non-empty frequency table (whose symbols are distinct, as frequency tables
guarantee), no symbol's code is a proper prefix of another symbol's
code. -/
theorem c6_codes_pre_free (f : List (Nat × Nat)) (root : HuffmanNode)
    (hne : f ≠ []) (hnd : (f.map Prod.fst).Nodup)
    (hroot : build_huffman_tree (build_heap f) = some root) :
    ∀ p q : Nat × List Bool, p ∈ (build_codes root).codes →
      q ∈ (build_codes root).codes → p.1 ≠ q.1 → ¬ (p.2 <+: q.2 ∧ p.2 ≠ q.2) := by
  have hperm : (optChars (some root)).Perm (f.map Prod.fst) :=
    (tree_chars (build_heap f).length _ root rfl hroot).trans (build_heap_chars f)
  have hoc : (optChars (some root)).Nodup := hperm.symm.nodup hnd
  have hcodes := congrArg CodeState.codes (build_codes_eq root hoc)
  intro p q hp hq hpq
  rw [hcodes] at hp hq
  have hne2 : p ≠ q := fun h => hpq (by rw [h])
  have hsymm : Symmetric (fun a b : Nat × List Bool => ¬ a.2 <+: b.2 ∧ ¬ b.2 <+: a.2) :=
    fun a b h => ⟨h.2, h.1⟩
  have hr := List.Pairwise.forall hsymm (codesOf_pairwise (some root) []) hp hq hne2
  intro hcon
  exact hr.1 hcon.1

/-- C6 witness: the two-symbol table {97: 1, 98: 1} satisfies the
hypotheses, and the codes of 97 and 98 in the generated table are mutually
non-prefix. -/
theorem c6_witness :
    ([(97, 1), (98, 1)] : List (Nat × Nat)) ≠ [] ∧
      (([(97, 1), (98, 1)] : List (Nat × Nat)).map Prod.fst).Nodup ∧
      build_huffman_tree (build_heap [(97, 1), (98, 1)]) =
        some (HuffmanNode.mk none 2 (some (HuffmanNode.mk (some 97) 1 none none))
          (some (HuffmanNode.mk (some 98) 1 none none))) ∧
      ¬ (([false] : List Bool) <+: [true] ∧ ([false] : List Bool) ≠ [true]) := by
  have hroot : build_huffman_tree (build_heap [(97, 1), (98, 1)]) =
      some (HuffmanNode.mk none 2 (some (HuffmanNode.mk (some 97) 1 none none))
        (some (HuffmanNode.mk (some 98) 1 none none))) := by
    rw [build_heap_ab]
    exact build_tree_ab
  refine ⟨by simp, by decide, hroot, ?_⟩
  refine c6_codes_pre_free [(97, 1), (98, 1)] _ (by simp) (by decide) hroot
    (97, [false]) (98, [true]) ?_ ?_ (by decide)
  · rw [congrArg CodeState.codes build_codes_ab]
    decide
  · rw [congrArg CodeState.codes build_codes_ab]
    decide

/-- C7: every container written by `compress` is, in order, the 2-byte
big-endian count of distinct symbols, then one record per distinct symbol
consisting of the 1-byte symbol followed by its 4-byte big-endian
frequency, then the packed byte sequence, whose first byte is the 1-byte
padding-count field. -/
theorem c7_container_layout {data out : List Nat} (h : compress data = some out) :
    ∃ (root : HuffmanNode) (enc : List Bool),
      build_huffman_tree (build_heap (build_frequency_dict data)) = some root ∧
      get_encoded_text (build_codes root).codes data = some enc ∧
      ((build_frequency_dict data).map Prod.fst).Nodup ∧
      (∀ x : Nat, x ∈ (build_frequency_dict data).map Prod.fst ↔ x ∈ data) ∧
      out = natToBytes 2 (build_frequency_dict data).length ++
        ((build_frequency_dict data).flatMap (fun p => p.1 :: natToBytes 4 p.2) ++
          getByteArrayGo (pad_encoded_text enc)) ∧
      (getByteArrayGo (pad_encoded_text enc)).head? = some (8 - enc.length % 8) := by
  obtain ⟨root, enc, hroot, henc, _, hout⟩ := compress_some_shape h
  exact ⟨root, enc, hroot, henc, build_frequency_dict_keys_nodup data,
    build_frequency_dict_mem_keys data, hout, pad_first_byte enc⟩

/-- C7 witness: the container for the input b"ab". -/
theorem c7_witness :
    compress [97, 98] = some [0, 2, 97, 0, 0, 0, 1, 98, 0, 0, 0, 1, 6, 64] ∧
      ∃ (root : HuffmanNode) (enc : List Bool),
        build_huffman_tree (build_heap (build_frequency_dict [97, 98])) = some root ∧
        get_encoded_text (build_codes root).codes [97, 98] = some enc ∧
        ((build_frequency_dict [97, 98]).map Prod.fst).Nodup ∧
        (∀ x : Nat, x ∈ (build_frequency_dict [97, 98]).map Prod.fst ↔ x ∈ [97, 98]) ∧
        [0, 2, 97, 0, 0, 0, 1, 98, 0, 0, 0, 1, 6, 64] =
          natToBytes 2 (build_frequency_dict [97, 98]).length ++
          ((build_frequency_dict [97, 98]).flatMap (fun p => p.1 :: natToBytes 4 p.2) ++
            getByteArrayGo (pad_encoded_text enc)) ∧
        (getByteArrayGo (pad_encoded_text enc)).head? = some (8 - enc.length % 8) :=
  ⟨compress_ab, c7_container_layout compress_ab⟩

/-- C8: for every container produced by `compress` (on byte-valued input
short enough for the 4-byte frequency fields), reading back the serialized
frequency table yields exactly the encoder's table, and rebuilding the
tree and code table from it yields a code table containing exactly the
same symbol-to-code pairs as the one used during encoding. -/
theorem c8_rebuilt_code_table_identical {data out : List Nat}
    (hb : ∀ c ∈ data, c < 256) (hlen : data.length < 4294967296)
    (h : compress data = some out) :
    ∃ (f2 : List (Nat × Nat)) (rest : List Nat) (rootE rootD : HuffmanNode),
      build_huffman_tree (build_heap (build_frequency_dict data)) = some rootE ∧
      read_freq_loop (fromBytesBE (out.take 2)) (out.drop 2) [] = some (f2, rest) ∧
      f2 = build_frequency_dict data ∧
      build_huffman_tree (build_heap f2) = some rootD ∧
      ∀ (c : Nat) (p : List Bool),
        ((c, p) ∈ (build_codes rootD).codes ↔ (c, p) ∈ (build_codes rootE).codes) := by
  have hne : data ≠ [] := by
    intro hd
    subst hd
    rw [show compress ([] : List Nat) = none by decide] at h
    cases h
  obtain ⟨root, enc, hroot, hperm, hcodes, hrm, henc, hencdef, hcomp⟩ :=
    compress_eq data hb hlen hne
  rw [h] at hcomp
  obtain rfl : out = natToBytes 2 (build_frequency_dict data).length ++
      ((build_frequency_dict data).flatMap (fun p => p.1 :: natToBytes 4 p.2) ++
        getByteArrayGo (pad_encoded_text enc)) := by
    exact Option.some.injEq .. ▸ hcomp
  have hknd := build_frequency_dict_keys_nodup data
  have hkmem := build_frequency_dict_mem_keys data
  have hflen : (build_frequency_dict data).length ≤ 256 := by
    have hklt : ∀ z ∈ (build_frequency_dict data).map Prod.fst, z < 256 :=
      fun z hz => hb z ((hkmem z).mp hz)
    have := nodup_bounded_length_le _ hknd hklt
    simpa using this
  have htake2 : (natToBytes 2 (build_frequency_dict data).length ++
      ((build_frequency_dict data).flatMap (fun p => p.1 :: natToBytes 4 p.2) ++
        getByteArrayGo (pad_encoded_text enc))).take 2 =
      natToBytes 2 (build_frequency_dict data).length :=
    List.take_left' (natToBytes_length 2 (build_frequency_dict data).length)
  have hdrop2 : (natToBytes 2 (build_frequency_dict data).length ++
      ((build_frequency_dict data).flatMap (fun p => p.1 :: natToBytes 4 p.2) ++
        getByteArrayGo (pad_encoded_text enc))).drop 2 =
      (build_frequency_dict data).flatMap (fun p => p.1 :: natToBytes 4 p.2) ++
        getByteArrayGo (pad_encoded_text enc) :=
    List.drop_left' (natToBytes_length 2 (build_frequency_dict data).length)
  rw [htake2, hdrop2]
  have hsize : fromBytesBE (natToBytes 2 (build_frequency_dict data).length) =
      (build_frequency_dict data).length := by
    apply fromBytesBE_natToBytes
    norm_num
    omega
  rw [hsize]
  have hread := read_freq_loop_eq (build_frequency_dict data)
    (getByteArrayGo (pad_encoded_text enc)) []
    (fun p hp => by have := build_frequency_dict_values_le data p hp; omega)
    (by simpa using hknd)
  rw [hread]
  exact ⟨build_frequency_dict data, getByteArrayGo (pad_encoded_text enc), root, root,
    hroot, by simp, rfl, hroot, fun c p => Iff.rfl⟩

/-- C8 witness: the container for the input b"ab". -/
theorem c8_witness :
    (∀ c ∈ ([97, 98] : List Nat), c < 256) ∧
      ([97, 98] : List Nat).length < 4294967296 ∧
      compress [97, 98] = some [0, 2, 97, 0, 0, 0, 1, 98, 0, 0, 0, 1, 6, 64] ∧
      ∃ (f2 : List (Nat × Nat)) (rest : List Nat) (rootE rootD : HuffmanNode),
        build_huffman_tree (build_heap (build_frequency_dict [97, 98])) = some rootE ∧
        read_freq_loop (fromBytesBE ([0, 2, 97, 0, 0, 0, 1, 98, 0, 0, 0, 1, 6, 64].take 2))
          ([0, 2, 97, 0, 0, 0, 1, 98, 0, 0, 0, 1, 6, 64].drop 2) [] = some (f2, rest) ∧
        f2 = build_frequency_dict [97, 98] ∧
        build_huffman_tree (build_heap f2) = some rootD ∧
        ∀ (c : Nat) (p : List Bool),
          ((c, p) ∈ (build_codes rootD).codes ↔ (c, p) ∈ (build_codes rootE).codes) :=
  ⟨by decide, by decide, compress_ab,
    c8_rebuilt_code_table_identical (by decide) (by decide) compress_ab⟩

/-- C9: for every finite byte sequence with at least two distinct byte
values (and short enough for the 4-byte frequency fields), decompressing
the container produced by compressing it returns exactly the original
sequence: both passes build the heap from the same frequency records in
the same insertion order and hence the same tree and code table. -/
theorem c9_roundtrip_two_distinct (data : List Nat) (hb : ∀ c ∈ data, c < 256)
    (hlen : data.length < 4294967296) (hdist : ∃ x ∈ data, ∃ y ∈ data, x ≠ y) :
    ∃ out, compress data = some out ∧ decompress out = some data :=
  decompress_compress data hb hlen hdist

/-- C9 witness: the round trip at the concrete input b"ab". -/
theorem c9_witness :
    (∀ c ∈ ([97, 98] : List Nat), c < 256) ∧
      ([97, 98] : List Nat).length < 4294967296 ∧
      (∃ x ∈ ([97, 98] : List Nat), ∃ y ∈ ([97, 98] : List Nat), x ≠ y) ∧
      ∃ out, compress [97, 98] = some out ∧ decompress out = some [97, 98] :=
  ⟨by decide, by decide, by decide,
    c9_roundtrip_two_distinct [97, 98] (by decide) (by decide) (by decide)⟩

/-- C10: in every container produced by `compress` the padding-count byte
holds a value between 1 and 8 and never 0, so the decoder's tail-stripping
slice removes at least one bit beyond the 8 header bits; and if the field
were 0, the `[:-0]` slice of `remove_padding` would instead discard the
entire remaining bit sequence. -/
theorem c10_padding_byte_never_zero {data out : List Nat} (h : compress data = some out) :
    (∃ (root : HuffmanNode) (enc : List Bool),
      build_huffman_tree (build_heap (build_frequency_dict data)) = some root ∧
      get_encoded_text (build_codes root).codes data = some enc ∧
      (getByteArrayGo (pad_encoded_text enc)).head? = some (8 - enc.length % 8) ∧
      1 ≤ 8 - enc.length % 8 ∧ 8 - enc.length % 8 ≤ 8 ∧
      remove_padding ((getByteArrayGo (pad_encoded_text enc)).flatMap (natToBits 8)) =
        some enc ∧
      enc.length + 8 <
        ((getByteArrayGo (pad_encoded_text enc)).flatMap (natToBits 8)).length) ∧
    ∀ s : List Bool, remove_padding (natToBits 8 0 ++ s) = some [] := by
  constructor
  · obtain ⟨root, enc, hroot, henc, _, _⟩ := compress_some_shape h
    have hflat : (getByteArrayGo (pad_encoded_text enc)).flatMap (natToBits 8) =
        pad_encoded_text enc :=
      getByteArrayGo_flat (pad_encoded_text enc).length _ rfl (pad_length_mod enc)
    refine ⟨root, enc, hroot, henc, pad_first_byte enc, by omega, by omega, ?_, ?_⟩
    · rw [hflat]
      exact remove_padding_pad enc
    · rw [hflat, pad_length]
      omega
  · intro s
    have hne : ((natToBits 8 0 ++ s).isEmpty) = false := by
      have hlen : (natToBits 8 0 ++ s).length = 8 + s.length := by
        rw [List.length_append, natToBits_length]
      cases hE : (natToBits 8 0 ++ s).isEmpty
      · rfl
      · rw [List.isEmpty_iff] at hE
        rw [hE] at hlen
        simp only [List.length_nil] at hlen
        omega
    rw [remove_padding]
    simp only [hne, Bool.false_eq_true, if_false]
    rw [List.take_left' (natToBits_length 8 0)]
    rw [show bitsToNat (natToBits 8 0) = 0 by decide]
    simp

/-- C10 witness: the container for the input b"ab". -/
theorem c10_witness :
    compress [97, 98] = some [0, 2, 97, 0, 0, 0, 1, 98, 0, 0, 0, 1, 6, 64] ∧
      ((∃ (root : HuffmanNode) (enc : List Bool),
        build_huffman_tree (build_heap (build_frequency_dict [97, 98])) = some root ∧
        get_encoded_text (build_codes root).codes [97, 98] = some enc ∧
        (getByteArrayGo (pad_encoded_text enc)).head? = some (8 - enc.length % 8) ∧
        1 ≤ 8 - enc.length % 8 ∧ 8 - enc.length % 8 ≤ 8 ∧
        remove_padding ((getByteArrayGo (pad_encoded_text enc)).flatMap (natToBits 8)) =
          some enc ∧
        enc.length + 8 <
          ((getByteArrayGo (pad_encoded_text enc)).flatMap (natToBits 8)).length) ∧
      ∀ s : List Bool, remove_padding (natToBits 8 0 ++ s) = some []) :=
  ⟨compress_ab, c10_padding_byte_never_zero compress_ab⟩
